import Mathlib

/-!
Verification development for the Indexing & Graph Engine of the
fv-skills-command repository (packages/core).  JavaScript sources are
shallowly embedded as Lean functions over lists and strings:

* strings are Lean `String`s (lists of Unicode scalar values); the
  JavaScript `localeCompare` comparator and the default `Array.sort`
  are modelled by code-point lexicographic comparison (`String` order);
* a JavaScript `Map` is modelled as an association list in insertion
  order, where `set` on an existing key replaces the value in place and
  `set` on a fresh key appends (`JsMap` below);
* JavaScript objects flowing through the graph builder are modelled by
  structures carrying exactly the fields the embedded code reads, with
  the empty string standing for a missing/empty (falsy) string field;
* `String.prototype.toLowerCase` is modelled by the ASCII fold
  `Char.toLower` (the design notes of the repository fix the fold to be
  a locale-independent ASCII fold; every character outside `[a-z0-9]`
  is replaced by a dash immediately afterwards);
* the recursive depth-first search of Tarjan is given an explicit
  structural fuel; the top-level entry point supplies fuel larger than
  the number of reachable vertices, which the lemmas below show is
  never exhausted.
-/

/-! ### Character classes (JavaScript regexes and trimming) -/

/-- Characters stripped by JavaScript `String.prototype.trim` (WhiteSpace
and LineTerminator code points). -/
def isJsWhitespaceChar (c : Char) : Bool :=
  c.toNat = 9 ∨ c.toNat = 10 ∨ c.toNat = 11 ∨ c.toNat = 12 ∨ c.toNat = 13 ∨
  c.toNat = 32 ∨ c.toNat = 160 ∨ c.toNat = 0x1680 ∨
  (0x2000 ≤ c.toNat ∧ c.toNat ≤ 0x200A) ∨ c.toNat = 0x2028 ∨ c.toNat = 0x2029 ∨
  c.toNat = 0x202F ∨ c.toNat = 0x205F ∨ c.toNat = 0x3000 ∨ c.toNat = 0xFEFF

/-- The character class `[a-z0-9]` of the normalizer regex in resolver.js. -/
def isCanonChar (c : Char) : Bool :=
  (97 ≤ c.toNat ∧ c.toNat ≤ 122) ∨ (48 ≤ c.toNat ∧ c.toNat ≤ 57)

/-- JavaScript regex `\s`: same code points as `trim` strips. -/
def isJsSpaceChar (c : Char) : Bool := isJsWhitespaceChar c

/-- JavaScript regex `\w`: the class `[A-Za-z0-9_]` (used for `\b`). -/
def isWordChar (c : Char) : Bool :=
  (65 ≤ c.toNat ∧ c.toNat ≤ 90) ∨ (97 ≤ c.toNat ∧ c.toNat ≤ 122) ∨
  (48 ≤ c.toNat ∧ c.toNat ≤ 57) ∨ c.toNat = 95

/-! ### Identifier normalization (resolver.js, normalizeDashSeparated) -/

/-- JavaScript `String.prototype.trim` on a character list. -/
def jsTrimList (s : List Char) : List Char :=
  ((s.dropWhile isJsWhitespaceChar).reverse.dropWhile isJsWhitespaceChar).reverse

/-- The replacement `.replace(/\.md$/i, '')`: strip one trailing `.md`,
case-insensitively. -/
def stripMdSuffixList (s : List Char) : List Char :=
  match s.reverse with
  | c1 :: c2 :: c3 :: rest =>
      if Char.toLower c1 = 'd' ∧ Char.toLower c2 = 'm' ∧ c3 = '.' then rest.reverse else s
  | _ => s

/-- The replacement `.replace(/[^a-z0-9]+/g, '-')` maps every character
outside `[a-z0-9]` to a dash; together with the following
dash-run collapse (collapseDashes) this replaces each maximal run of
such characters by a single dash, exactly as the source regex does. -/
def dashifyList (s : List Char) : List Char :=
  s.map (fun c => if isCanonChar c then c else '-')

/-- The replacement of every run of dashes by a single dash (the second
global replace of the source, whose regex is dash-plus). -/
def collapseDashes : List Char → List Char
  | [] => []
  | [c] => [c]
  | a :: b :: rest =>
      if a = '-' ∧ b = '-' then collapseDashes (b :: rest)
      else a :: collapseDashes (b :: rest)

/-- The replacement `.replace(/^-|-$/g, '')`: remove one leading and one
trailing dash (the global regex matches at most once at each end). -/
def stripEdgeDashes (s : List Char) : List Char :=
  let s1 := if s.head? = some '-' then s.tail else s
  if s1.getLast? = some '-' then s1.dropLast else s1

/-- normalizeDashSeparated from resolver.js: trim, lowercase, strip a
trailing `.md`, replace runs of characters outside `[a-z0-9]` by a single
dash, collapse dash runs, strip edge dashes. -/
def normalizeDashSeparatedList (s : List Char) : List Char :=
  stripEdgeDashes (collapseDashes (dashifyList
    (stripMdSuffixList ((jsTrimList s).map Char.toLower))))

/-- String-level wrapper for normalizeDashSeparated. -/
def normalizeDashSeparated (s : String) : String :=
  ⟨normalizeDashSeparatedList s.data⟩

/-- normalizeSkillId from resolver.js (an alias of the normalizer). -/
def normalizeSkillId (s : String) : String := normalizeDashSeparated s

/-- A character that can occur in a normalized identifier. -/
def isCanonOrDash (c : Char) : Bool := isCanonChar c || c = '-'

/-- No two adjacent dashes. -/
def NoDoubleDash (s : List Char) : Prop :=
  List.Chain' (fun a b => ¬(a = '-' ∧ b = '-')) s

/-! ### JavaScript Map and helper primitives -/

/-- A JavaScript Map with string keys: an association list in insertion
order; set replaces the value in place on an existing key and appends
otherwise, so iteration order matches first-insertion order, as for a
JavaScript Map. -/
abbrev JsMap (α : Type) := List (String × α)

def jmHas {α : Type} (m : JsMap α) (k : String) : Bool :=
  m.any (fun p => p.1 == k)

def jmGet {α : Type} (m : JsMap α) (k : String) : Option α :=
  (m.find? (fun p => p.1 == k)).map (·.2)

def jmSet {α : Type} (m : JsMap α) (k : String) (v : α) : JsMap α :=
  if jmHas m k then m.map (fun p => if p.1 == k then (k, v) else p)
  else m ++ [(k, v)]

def jmKeys {α : Type} (m : JsMap α) : List String := m.map (·.1)

def jmValues {α : Type} (m : JsMap α) : List α := m.map (·.2)

/-- In-place mutation of the value stored at an existing key (used to model
Array.push into an array previously stored in a Map). -/
def jmModify {α : Type} (m : JsMap α) (k : String) (f : α → α) : JsMap α :=
  m.map (fun p => if p.1 == k then (k, f p.2) else p)

/-- JavaScript `a || b` for strings: the empty string is falsy. -/
def jsOr (a b : String) : String := if a = "" then b else a

/-- String-level JavaScript trim. -/
def jsTrim (s : String) : String := ⟨jsTrimList s.data⟩

/-- basename from node:path (posix flavor): strip trailing slashes, then
return the final slash-separated segment; the basename of an empty path is
empty and the basename of a path of only slashes is a single slash. -/
def basename (p : String) : String :=
  let r := p.data.reverse
  let r1 := r.dropWhile (fun c => c == '/')
  if r1 = [] then (if r = [] then "" else "/")
  else ⟨(r1.takeWhile (fun c => !(c == '/'))).reverse⟩

/-- The replacement removing one final dot-extension (regex: a literal dot
followed by one or more non-dot characters, anchored at the end). -/
def stripExt (p : String) : String :=
  let r := p.data.reverse
  let run := r.takeWhile (fun c => !(c == '.'))
  if run.length < r.length ∧ 0 < run.length then ⟨(r.drop (run.length + 1)).reverse⟩
  else p

/-! ### Reference resolver (resolver.js) -/

/-- Marker for unresolved reference ids (named GHOST underscore PREFIX in
resolver.js; renamed here). -/
def GHOST_MARK : String := "unresolved:"

/-- The shape of the entries that collectKnownSkills in graph.js passes to
createWikiLinkResolver: exactly the record fields toCanonicalEntry reads.
collectKnownSkills never copies a slug field, so slug stays empty. -/
structure KnownSkill where
  id : String
  name : String
  slug : String
  file : String
  path : String
  fileStem : String
  aliases : List String
deriving DecidableEq, Repr

structure CanonicalEntry where
  id : String
  displayName : String
  names : List String
  stem : String
deriving DecidableEq, Repr

/-- normalizeName from resolver.js: String(value).trim(). -/
def normalizeName (value : String) : String := jsTrim value

/-- safeFileStem from resolver.js: basename with the final extension
removed. -/
def safeFileStem (filePath : String) : String := stripExt (basename filePath)

/-- toCanonicalEntry from resolver.js, object branch (the graph builder
always passes objects). -/
def toCanonicalEntry (raw : KnownSkill) : Option CanonicalEntry :=
  let primaryName := normalizeName
    (jsOr raw.name (jsOr raw.id (jsOr raw.slug (jsOr raw.fileStem (jsOr raw.file raw.path)))))
  let normalizedId := normalizeDashSeparated
    (jsOr raw.id (jsOr raw.name (jsOr raw.slug (jsOr raw.fileStem
      (safeFileStem (jsOr raw.file raw.path))))))
  if normalizedId = "" then none
  else
    let stem := normalizeDashSeparated
      (jsOr raw.fileStem (safeFileStem (jsOr raw.file (jsOr raw.path primaryName))))
    some
      { id := normalizedId
        displayName := jsOr primaryName normalizedId
        names := (([primaryName, raw.id, raw.slug] ++ raw.aliases).map normalizeName).filter
          (fun s => s != "")
        stem := jsOr stem normalizedId }

/-- The result record of WikiResolver.resolve. -/
structure ResolveOutcome where
  found : Bool
  matchedBy : String
  id : String
  displayName : String
deriving DecidableEq, Repr

/-- The three indexes of createWikiLinkResolver (named exact, normalized
and stems in resolver.js). -/
structure WikiResolver where
  exactIndex : JsMap CanonicalEntry
  normalizedIndex : JsMap CanonicalEntry
  stemIndex : JsMap CanonicalEntry
deriving DecidableEq, Repr

/-- Index construction of createWikiLinkResolver from resolver.js: for
every canonical entry, each name feeds the exact index and (normalized)
the normalized index; then the entry id feeds the normalized index and the
stem feeds the stem index. -/
def createWikiLinkResolver (knownSkills : List KnownSkill) : WikiResolver :=
  knownSkills.foldl (fun r rawEntry =>
    match toCanonicalEntry rawEntry with
    | none => r
    | some entry =>
      let r1 := entry.names.foldl (fun acc name =>
        { acc with
          exactIndex := jmSet acc.exactIndex name entry
          normalizedIndex := jmSet acc.normalizedIndex (normalizeDashSeparated name) entry }) r
      { r1 with
        normalizedIndex := jmSet r1.normalizedIndex entry.id entry
        stemIndex := jmSet r1.stemIndex entry.stem entry }) ⟨[], [], []⟩

/-- The resolve closure returned by createWikiLinkResolver. -/
def WikiResolver.resolve (r : WikiResolver) (targetRaw : String) : ResolveOutcome :=
  let target := normalizeName targetRaw
  if target = "" then
    { found := false, matchedBy := "ghost", id := GHOST_MARK ++ "unknown",
      displayName := "unknown" }
  else
    match jmGet r.exactIndex target with
    | some exactMatch =>
        { found := true, matchedBy := "exact", id := exactMatch.id,
          displayName := exactMatch.displayName }
    | none =>
      let normalizedTarget := normalizeDashSeparated target
      match jmGet r.normalizedIndex normalizedTarget with
      | some normalizedMatch =>
          { found := true, matchedBy := "normalized", id := normalizedMatch.id,
            displayName := normalizedMatch.displayName }
      | none =>
        match jmGet r.stemIndex normalizedTarget with
        | some stemMatch =>
            { found := true, matchedBy := "filename-stem", id := stemMatch.id,
              displayName := stemMatch.displayName }
        | none =>
            { found := false, matchedBy := "ghost",
              id := GHOST_MARK ++ (jsOr normalizedTarget "unknown"),
              displayName := target }

/-! ### Graph builder (graph.js) -/

/-- The raw skill records accepted by buildSkillsGraph, restricted to the
fields graph.js reads; the empty string models a missing or empty (falsy)
field, matching the use of the JavaScript or-chains. -/
structure RawSkill where
  id : String
  name : String
  slug : String
  title : String
  type : String
  moc : Bool
  category : String
  status : String
  file : String
  path : String
  fileStem : String
  related : List String
  scripts : List String
  wikiLinks : List String
  aliases : List String
deriving DecidableEq, Repr

/-- A raw record with only a name set (all other fields absent). -/
def mkRaw (name : String) : RawSkill :=
  ⟨"", name, "", "", "", false, "", "", "", "", "", [], [], [], []⟩

/-- The parsed skill produced by parseSkillInput. -/
structure ParsedSkill where
  id : String
  name : String
  type : String
  moc : Bool
  category : String
  status : String
  file : String
  path : String
  fileStem : String
  related : List String
  scripts : List String
  wikiLinks : List String
  aliases : List String
deriving DecidableEq, Repr

/-- TYPE underscore TO underscore SHAPE from graph.js, as a lookup. -/
def TYPE_TO_SHAPE (t : String) : Option String :=
  if t = "skill" then some "ellipse"
  else if t = "subagent" then some "round-rectangle"
  else if t = "hook" then some "hexagon"
  else if t = "command" then some "parallelogram"
  else if t = "moc" then some "diamond"
  else if t = "script" then some "rectangle"
  else if t = "unresolved" then some "round-rectangle"
  else if t = "cycle" then some "round-rectangle"
  else none

/-- TYPE underscore TO underscore COLOR from graph.js, with the color
values resolved from the default theme (themeToGraphColors over
FV defaults in theme.js and theme.config.json). -/
def TYPE_TO_COLOR (t : String) : Option String :=
  if t = "skill" then some "#0076B6"
  else if t = "subagent" then some "#6495ED"
  else if t = "hook" then some "#4682B4"
  else if t = "command" then some "#66B2DD"
  else if t = "moc" then some "#F7931A"
  else if t = "script" then some "#708090"
  else if t = "unresolved" then some "#708090"
  else if t = "cycle" then some "#F7931A"
  else none

/-- normalizeType from graph.js. -/
def normalizeType (rawType : String) (moc : Bool) : String :=
  if moc then "moc"
  else
    let normalized := normalizeSkillId (jsOr rawType "skill")
    if normalized = "skill" ∨ normalized = "subagent" ∨ normalized = "hook" ∨
       normalized = "command" ∨ normalized = "moc" ∨ normalized = "script"
    then normalized
    else "skill"

/-- deriveSkillId from graph.js. -/
def deriveSkillId (raw : RawSkill) : String :=
  normalizeSkillId (jsOr raw.id (jsOr raw.name (jsOr raw.slug (jsOr raw.fileStem
    (basename (jsOr raw.file raw.path))))))

/-- deriveLabel from graph.js. -/
def deriveLabel (raw : RawSkill) (id : String) : String :=
  jsOr raw.name (jsOr raw.title (jsOr raw.slug (jsOr id "unknown")))

/-- parseSkillInput from graph.js.  Non-object entries never arise in the
model; records whose derived id is empty are skipped. -/
def parseSkillInput (rawSkills : List RawSkill) : List ParsedSkill :=
  rawSkills.filterMap (fun raw =>
    let id := deriveSkillId raw
    if id = "" then none
    else some
      { id := id
        name := deriveLabel raw id
        type := normalizeType raw.type raw.moc
        moc := raw.moc
        category := raw.category
        status := raw.status
        file := raw.file
        path := raw.path
        fileStem := jsOr raw.fileStem (stripExt (basename (jsOr raw.file raw.path)))
        related := raw.related
        scripts := raw.scripts
        wikiLinks := raw.wikiLinks
        aliases := raw.aliases })

/-- collectKnownSkills from graph.js. -/
def collectKnownSkills (skills : List ParsedSkill) : List KnownSkill :=
  skills.map (fun skill =>
    { id := skill.id, name := skill.name, slug := "", file := skill.file,
      path := skill.path, fileStem := skill.fileStem, aliases := skill.aliases })

/-- A graph node.  All three node constructors of graph.js produce objects
with this field set; category, status and scriptPath use the empty string
for null or absent values, and cycleSize is zero except on supernodes. -/
structure Node where
  id : String
  label : String
  type : String
  shape : String
  color : String
  category : String
  status : String
  moc : Bool
  isGhost : Bool
  members : List String
  scriptPath : String
  cycleSize : Nat
deriving DecidableEq, Repr

/-- A graph edge; targetRaw, matchedBy and collapsedFrom use the empty
string when the corresponding extra is absent. -/
structure Edge where
  id : String
  source : String
  target : String
  kind : String
  targetRaw : String
  matchedBy : String
  collapsedFrom : String
deriving DecidableEq, Repr

/-- The result record of resolveTarget in graph.js. -/
structure ResolvedTarget where
  id : String
  found : Bool
  matchedBy : String
  label : String
  raw : String
deriving DecidableEq, Repr

/-- resolveTarget from graph.js. -/
def resolveTarget (rawTarget : String) (resolver : WikiResolver) : ResolvedTarget :=
  let target := jsTrim rawTarget
  if target = "" then
    { id := GHOST_MARK ++ "unknown", found := false, matchedBy := "ghost",
      label := "unknown", raw := target }
  else
    let resolved := resolver.resolve target
    { id := resolved.id, found := resolved.found, matchedBy := resolved.matchedBy,
      label := jsOr resolved.displayName target, raw := target }

/-- nodeFromSkill from graph.js. -/
def nodeFromSkill (skill : ParsedSkill) : Node :=
  { id := skill.id
    label := skill.name
    type := skill.type
    shape := (TYPE_TO_SHAPE skill.type).getD "ellipse"
    color := (TYPE_TO_COLOR skill.type).getD "#0076B6"
    category := skill.category
    status := skill.status
    moc := skill.moc
    isGhost := false
    members := []
    scriptPath := ""
    cycleSize := 0 }

/-- nodeFromGhost from graph.js. -/
def nodeFromGhost (target : ResolvedTarget) : Node :=
  { id := target.id
    label := jsOr target.raw (jsOr target.label target.id)
    type := "unresolved"
    shape := "round-rectangle"
    color := "#708090"
    category := ""
    status := ""
    moc := false
    isGhost := true
    members := []
    scriptPath := ""
    cycleSize := 0 }

/-- scriptNodeId from graph.js. -/
def scriptNodeId (scriptPath : String) : String := "script:" ++ jsTrim scriptPath

/-- nodeFromScript from graph.js. -/
def nodeFromScript (scriptPath : String) : Node :=
  { id := scriptNodeId scriptPath
    label := basename scriptPath
    type := "script"
    shape := "rectangle"
    color := "#708090"
    category := ""
    status := ""
    moc := false
    isGhost := false
    members := []
    scriptPath := scriptPath
    cycleSize := 0 }

/-- The object-spread merge of upsertNode in graph.js.  All node
constructors produce the same field set, so the spread of the incoming
node over the existing one keeps every field of the incoming node except
members (JavaScript arrays are truthy, so existing.members wins in the
or-chain for members).  The explicit ghost-promotion branch of the source
re-assigns color, type, label from the incoming node and clears isGhost,
which the spread has already established for a real incoming node. -/
def mergeNode (existing node : Node) : Node :=
  let merged := { node with members := existing.members }
  if existing.isGhost ∧ ¬ node.isGhost then
    { merged with
      color := node.color
      type := node.type
      label := node.label
      isGhost := false }
  else merged

/-- upsertNode from graph.js. -/
def upsertNode (nodeMap : JsMap Node) (node : Node) : JsMap Node :=
  match jmGet nodeMap node.id with
  | none => jmSet nodeMap node.id node
  | some existing => jmSet nodeMap node.id (mergeNode existing node)

/-- The edge key written by addEdge in graph.js. -/
def edgeKey (source target kind : String) : String :=
  source ++ "=>" ++ target ++ "::" ++ kind

/-- addEdge from graph.js; the three extras are passed positionally, with
the empty string standing for an absent extra. -/
def addEdge (edgeMap : JsMap Edge) (source target kind targetRaw matchedBy
    collapsedFrom : String) : JsMap Edge :=
  if source = "" ∨ target = "" then edgeMap
  else
    let key := edgeKey source target kind
    if jmHas edgeMap key then edgeMap
    else jmSet edgeMap key
      { id := key, source := source, target := target, kind := kind,
        targetRaw := targetRaw, matchedBy := matchedBy,
        collapsedFrom := collapsedFrom }

/-- buildCycleAdjacency from graph.js: the adjacency over eligible nodes
(neither ghost, nor script, nor cycle typed) plus the eligible id set. -/
def buildCycleAdjacency (nodes : List Node) (edges : List Edge) :
    JsMap (List String) × List String :=
  let init : JsMap (List String) × List String :=
    nodes.foldl (fun acc node =>
      if ¬ node.isGhost ∧ node.type ≠ "script" ∧ node.type ≠ "cycle" then
        (jmSet acc.1 node.id [],
         if node.id ∈ acc.2 then acc.2 else acc.2 ++ [node.id])
      else acc) ([], [])
  let adjacency := edges.foldl (fun adj edge =>
    if edge.source ∈ init.2 ∧ edge.target ∈ init.2 then
      jmModify adj edge.source (fun l => l ++ [edge.target])
    else adj) init.1
  (adjacency, init.2)

/-! ### Tarjan strongly connected components (graph.js, tarjanScc) -/

structure TarjanState where
  indexByNode : JsMap Nat
  lowLinkByNode : JsMap Nat
  onStack : List String
  stack : List String
  components : List (List String)
  index : Nat
deriving DecidableEq, Repr

def tarjanInit : TarjanState := ⟨[], [], [], [], [], 0⟩

def getIdx (st : TarjanState) (x : String) : Nat := (jmGet st.indexByNode x).getD 0

def getLow (st : TarjanState) (x : String) : Nat := (jmGet st.lowLinkByNode x).getD 0

def setLow (st : TarjanState) (x : String) (v : Nat) : TarjanState :=
  { st with lowLinkByNode := jmSet st.lowLinkByNode x v }

/-- The pop loop at the end of strongConnect: pop stack elements into a
fresh component until the root has been popped.  The stack is modelled
with its top at the head of the list. -/
def popLoop (u : String) : List String → List String → List String →
    List String × List String × List String
  | [], onStack, component => ([], onStack, component)
  | m :: rest, onStack, component =>
      let onStack2 := onStack.erase m
      let component2 := component ++ [m]
      if m = u then (rest, onStack2, component2)
      else popLoop u rest onStack2 component2

def popComponent (u : String) (st : TarjanState) : TarjanState :=
  match popLoop u st.stack st.onStack [] with
  | (stack2, onStack2, component) =>
      { st with stack := stack2, onStack := onStack2,
                components := st.components ++ [component] }

/-- strongConnect from tarjanScc in graph.js.  The structural fuel bounds
the recursion depth: every nested call is made on a vertex that is
unindexed at call time and becomes indexed immediately, so a fuel
exceeding the number of vertices (as supplied by tarjanScc) is never
exhausted; the lemmas below depend only on runs that never reach fuel
zero. -/
def strongConnect (adj : JsMap (List String)) : Nat → String → TarjanState → TarjanState
  | 0, _, st => st
  | fuel + 1, u, st =>
    let st1 : TarjanState :=
      { indexByNode := jmSet st.indexByNode u st.index
        lowLinkByNode := jmSet st.lowLinkByNode u st.index
        onStack := if u ∈ st.onStack then st.onStack else st.onStack ++ [u]
        stack := u :: st.stack
        components := st.components
        index := st.index + 1 }
    let neighbors := (jmGet adj u).getD []
    let st2 := neighbors.foldl (fun acc n =>
      if (jmGet acc.indexByNode n).isNone then
        let stA := strongConnect adj fuel n acc
        setLow stA u (min (getLow stA u) (getLow stA n))
      else if n ∈ acc.onStack then
        setLow acc u (min (getLow acc u) (getIdx acc n))
      else acc) st1
    if getLow st2 u = getIdx st2 u then popComponent u st2 else st2

/-- All node names strongConnect can ever be called on: the adjacency
keys together with every neighbor value. -/
def tarjanUniv (adj : JsMap (List String)) : List String :=
  jmKeys adj ++ (jmValues adj).flatten

/-- tarjanScc from graph.js: run strongConnect over all unvisited keys. -/
def tarjanScc (adj : JsMap (List String)) : List (List String) :=
  let fuel := (tarjanUniv adj).length + 1
  ((jmKeys adj).foldl (fun st node =>
    if (jmGet st.indexByNode node).isNone then strongConnect adj fuel node st else st)
    tarjanInit).components

/-! ### Cycle condensation and graph assembly (graph.js) -/

structure CycleInfo where
  id : String
  members : List String
  label : String
deriving DecidableEq, Repr

structure CondensedResult where
  nodes : List Node
  edges : List Edge
  cycles : List CycleInfo
  cycleLookup : JsMap String
deriving DecidableEq, Repr

/-- Code-point lexicographic comparison of character lists (the model of
the localeCompare comparator and of the default string sort). -/
def charListLe : List Char → List Char → Bool
  | [], _ => true
  | _ :: _, [] => false
  | a :: as, b :: bs =>
    if a.toNat < b.toNat then true
    else if b.toNat < a.toNat then false
    else charListLe as bs

/-- String comparison used by every sort of the pipeline. -/
def strLeB (a b : String) : Bool := charListLe a.data b.data

/-- Default Array.prototype.sort on strings, modelled by code-point
order. -/
def sortStrings (l : List String) : List String :=
  List.insertionSort (fun a b => strLeB a b = true) l

/-- condenseCycles from graph.js. -/
def condenseCycles (nodes : List Node) (edges : List Edge) : CondensedResult :=
  let adjacency := (buildCycleAdjacency nodes edges).1
  let components := tarjanScc adjacency
  let selfLoops := edges.foldl (fun acc e =>
    if e.source = e.target then (if e.source ∈ acc then acc else acc ++ [e.source])
    else acc) []
  let cycles := components.filter (fun component =>
    decide (component.length > 1) || decide ((component.headD "") ∈ selfLoops))
  if cycles.length = 0 then
    { nodes := nodes, edges := edges, cycles := [], cycleLookup := [] }
  else
    let cycleNodes : List Node := cycles.enum.map (fun p =>
      { id := "cycle:" ++ toString (p.1 + 1)
        label := "cycle(" ++ toString p.2.length ++ ")"
        type := "cycle"
        shape := "round-rectangle"
        color := "#F7931A"
        category := ""
        status := ""
        moc := false
        isGhost := false
        members := sortStrings p.2
        scriptPath := ""
        cycleSize := p.2.length })
    let memberToCycle : JsMap String := cycles.enum.foldl (fun m p =>
      p.2.foldl (fun m2 member => jmSet m2 member ("cycle:" ++ toString (p.1 + 1))) m) []
    let condensedNodes := (nodes.filter (fun node => ¬ jmHas memberToCycle node.id)) ++ cycleNodes
    let condensedEdgeMap := edges.foldl (fun em edge =>
      let source := (jmGet memberToCycle edge.source).getD edge.source
      let target := (jmGet memberToCycle edge.target).getD edge.target
      if source = target then em
      else addEdge em source target edge.kind "" "" edge.id) []
    { nodes := condensedNodes
      edges := jmValues condensedEdgeMap
      cycles := cycleNodes.map (fun node =>
        { id := node.id, members := node.members, label := node.label })
      cycleLookup := memberToCycle }

/-- The node comparator of sortGraph (localeCompare on ids, modelled by
code-point order). -/
def nodeLe (a b : Node) : Prop := strLeB a.id b.id = true

/-- The edge comparator of sortGraph (localeCompare on edge ids). -/
def edgeLe (a b : Edge) : Prop := strLeB a.id b.id = true

instance : DecidableRel nodeLe :=
  fun a b => inferInstanceAs (Decidable (strLeB a.id b.id = true))

instance : DecidableRel edgeLe :=
  fun a b => inferInstanceAs (Decidable (strLeB a.id b.id = true))

/-- sortGraph from graph.js (a stable sort with the localeCompare
comparator on ids). -/
def sortGraph (nodes : List Node) (edges : List Edge) : List Node × List Edge :=
  (List.insertionSort nodeLe nodes, List.insertionSort edgeLe edges)

/-! ### Adjacency exporter (graph.js, buildAdjacencyList) -/

structure AdjOptions where
  includeGhost : Bool
  includeScripts : Bool
  includeCycles : Bool
deriving DecidableEq, Repr

/-- The default adjacency options (all three Boolean(undefined)). -/
def defaultAdjOptions : AdjOptions := ⟨false, false, false⟩

structure AdjBuckets where
  all : List String
  wiki : List String
  related : List String
  scripts : List String
deriving DecidableEq, Repr

/-- toSortedUnique from graph.js: Set de-duplication (first occurrence
kept) followed by a localeCompare sort. -/
def toSortedUnique (values : List String) : List String :=
  sortStrings values.eraseDups

/-- The bucket chosen by buildAdjacencyList for an edge kind: related and
scripts map to themselves and everything else maps to wiki. -/
def canonEdgeKind (kind : String) : String :=
  if kind = "related" ∨ kind = "scripts" then kind else "wiki"

/-- The per-node filter step of buildAdjacencyList: excluded nodes get no
bucket entry; every other node gets empty buckets. -/
def adjNodeStep (options : AdjOptions) (m : JsMap AdjBuckets) (node : Node) :
    JsMap AdjBuckets :=
  if ¬ options.includeGhost ∧ node.isGhost then m
  else if ¬ options.includeScripts ∧ node.type = "script" then m
  else if ¬ options.includeCycles ∧ node.type = "cycle" then m
  else jmSet m node.id ⟨[], [], [], []⟩

/-- The per-edge step of buildAdjacencyList: if the source has a bucket,
push the target into the all list and the list of the canonical kind;
targets are never filtered. -/
def adjEdgeStep (m : JsMap AdjBuckets) (edge : Edge) : JsMap AdjBuckets :=
  if jmHas m edge.source then
    jmModify m edge.source (fun (b : AdjBuckets) =>
      let kind := canonEdgeKind edge.kind
      let b1 := { b with all := b.all ++ [edge.target] }
      if kind = "related" then { b1 with related := b1.related ++ [edge.target] }
      else if kind = "scripts" then { b1 with scripts := b1.scripts ++ [edge.target] }
      else { b1 with wiki := b1.wiki ++ [edge.target] })
  else m

/-- The sorted-unique transformation applied to a bucket on emission. -/
def emitBuckets (b : AdjBuckets) : AdjBuckets :=
  ⟨toSortedUnique b.all, toSortedUnique b.wiki,
   toSortedUnique b.related, toSortedUnique b.scripts⟩

/-- The final emission step of buildAdjacencyList over the sorted keys. -/
def adjEmit (buckets2 : JsMap AdjBuckets) (out : JsMap AdjBuckets)
    (nodeId : String) : JsMap AdjBuckets :=
  match jmGet buckets2 nodeId with
  | none => out
  | some buckets => out ++ [(nodeId, emitBuckets buckets)]

/-- The bucket list of an adjacency entry for a canonical edge kind. -/
def bucketSel (b : AdjBuckets) (kind : String) : List String :=
  if kind = "related" then b.related
  else if kind = "scripts" then b.scripts
  else b.wiki

/-- buildAdjacencyList from graph.js. -/
def buildAdjacencyList (nodes : List Node) (edges : List Edge)
    (options : AdjOptions) : JsMap AdjBuckets :=
  let bucketsByNode := nodes.foldl (adjNodeStep options) []
  let buckets2 := edges.foldl adjEdgeStep bucketsByNode
  let keysSorted := sortStrings (jmKeys buckets2)
  keysSorted.foldl (adjEmit buckets2) []

/-! ### buildSkillsGraph (graph.js) -/

structure GraphOptions where
  condenseCycles : Bool
  adjacencyOptions : AdjOptions
deriving DecidableEq, Repr

/-- The default build options: condensation on (only an explicit false
disables it in the source), adjacency options all false.  The optional
resolver injection of the source is not modelled; the builder always
constructs its resolver from the parsed records. -/
def defaultGraphOptions : GraphOptions := ⟨true, defaultAdjOptions⟩

structure GraphMeta where
  nodeCount : Nat
  edgeCount : Nat
  cycleCount : Nat
deriving DecidableEq, Repr

structure Graph where
  nodes : List Node
  edges : List Edge
  adjacency : JsMap AdjBuckets
  rawAdjacency : JsMap AdjBuckets
  cycles : List CycleInfo
  meta : GraphMeta
deriving DecidableEq, Repr

/-- The two builder loops of buildSkillsGraph: upsert a node per parsed
skill, then per skill add script nodes and edges, related edges (with
ghost upserts on unresolved targets) and wiki edges.  Wiki links are
modelled as raw strings (the string branch of the source). -/
def buildGraphCore (skills : List ParsedSkill) (resolver : WikiResolver) :
    JsMap Node × JsMap Edge :=
  let nodeMap := skills.foldl (fun m skill => upsertNode m (nodeFromSkill skill)) []
  skills.foldl (fun acc skill =>
    let acc1 := skill.scripts.foldl (fun (acc : JsMap Node × JsMap Edge) scriptPath =>
      if scriptPath = "" then acc
      else
        let scriptNode := nodeFromScript scriptPath
        (upsertNode acc.1 scriptNode,
         addEdge acc.2 skill.id scriptNode.id "scripts" "" "" "")) acc
    let acc2 := skill.related.foldl (fun (acc : JsMap Node × JsMap Edge) relatedTarget =>
      let target := resolveTarget relatedTarget resolver
      let nm := if ¬ target.found then upsertNode acc.1 (nodeFromGhost target) else acc.1
      (nm, addEdge acc.2 skill.id target.id "related" target.raw target.matchedBy "")) acc1
    skill.wikiLinks.foldl (fun (acc : JsMap Node × JsMap Edge) wikiLink =>
      let target := resolveTarget wikiLink resolver
      let nm := if ¬ target.found then upsertNode acc.1 (nodeFromGhost target) else acc.1
      (nm, addEdge acc.2 skill.id target.id "wiki" target.raw target.matchedBy "")) acc2)
    (nodeMap, ([] : JsMap Edge))

/-- buildSkillsGraph from graph.js. -/
def buildSkillsGraph (rawSkills : List RawSkill) (options : GraphOptions) : Graph :=
  let skills := parseSkillInput rawSkills
  let resolver := createWikiLinkResolver (collectKnownSkills skills)
  let core := buildGraphCore skills resolver
  let graphNodes := jmValues core.1
  let graphEdges := jmValues core.2
  let rawAdjacency := buildAdjacencyList graphNodes graphEdges options.adjacencyOptions
  let condensed := if options.condenseCycles = false then none
    else some (condenseCycles graphNodes graphEdges)
  let finalNodes := match condensed with | some c => c.nodes | none => graphNodes
  let finalEdges := match condensed with | some c => c.edges | none => graphEdges
  let sorted := sortGraph finalNodes finalEdges
  let adjacency := buildAdjacencyList sorted.1 sorted.2 options.adjacencyOptions
  { nodes := sorted.1
    edges := sorted.2
    adjacency := adjacency
    rawAdjacency := rawAdjacency
    cycles := match condensed with | some c => c.cycles | none => []
    meta :=
      { nodeCount := sorted.1.length
        edgeCount := sorted.2.length
        cycleCount := match condensed with | some c => c.cycles.length | none => 0 } }

/-- Strict code-point order on strings. -/
def strLtB (a b : String) : Bool := strLeB a b && !(a == b)

/-- Ascending order on the (source, target, kind) triple of an edge,
as the specification describes the edge sort order. -/
def edgeTripleLeB (a b : Edge) : Bool :=
  strLtB a.source b.source ||
    (a.source == b.source &&
      (strLtB a.target b.target ||
        (a.target == b.target && strLeB a.kind b.kind)))

/-- Pointwise containment of adjacency buckets (used to track that the
edge fold only ever appends to bucket lists). -/
def bucketsGrow (b b2 : AdjBuckets) : Prop :=
  (∀ x ∈ b.all, x ∈ b2.all) ∧ (∀ x ∈ b.wiki, x ∈ b2.wiki) ∧
  (∀ x ∈ b.related, x ∈ b2.related) ∧ (∀ x ∈ b.scripts, x ∈ b2.scripts)

/-! ### Health checks (health.js): structure rule and frontmatter -/

/-- JavaScript regex line terminators (where a multiline caret matches
after): LF, CR, LS, PS. -/
def isJsLineTerm (c : Char) : Bool :=
  c.toNat = 10 ∨ c.toNat = 13 ∨ c.toNat = 0x2028 ∨ c.toNat = 0x2029

/-- The word-boundary test after a keyword: end of input or a character
outside the word class. -/
def wordBoundary : List Char → Bool
  | [] => true
  | c :: _ => !(isWordChar c)

/-- Case-insensitive keyword match followed by a word boundary. -/
def kwMatchCI (cs : List Char) (kw : String) : Bool :=
  let n := kw.data.length
  ((cs.take n).map Char.toLower == kw.data) && wordBoundary (cs.drop n)

/-- Match of the structure-heading regex at one position: one to three
hash marks (a longer run cannot match, since after backtracking the next
character is still a hash), at least one regex whitespace (which may span
lines), then Description, Output or Format case-insensitively, then a
word boundary. -/
def dofMatchAt (cs : List Char) : Bool :=
  let k := (cs.takeWhile (fun c => c == '#')).length
  if 1 ≤ k ∧ k ≤ 3 then
    match cs.drop k with
    | [] => false
    | c :: rest =>
      if isJsSpaceChar c then
        let rest2 := (c :: rest).dropWhile isJsSpaceChar
        kwMatchCI rest2 "description" || kwMatchCI rest2 "output" ||
          kwMatchCI rest2 "format"
      else false
  else false

/-- Scan all line-start positions for a structure-heading match (the
multiline caret matches at the string start and after line terminators). -/
def dofScanAux : Bool → List Char → Bool
  | _, [] => false
  | atStart, c :: rest =>
      (atStart && dofMatchAt (c :: rest)) || dofScanAux (isJsLineTerm c) rest

/-- The test of DOF heading regex from health.js on a document. -/
def hasDofHeading (content : String) : Bool := dofScanAux true content.data

/-- The opening of the frontmatter regex: three dashes at the string
start, an optional CR, then LF; returns the remainder. -/
def fmOpen : List Char → Option (List Char)
  | '-' :: '-' :: '-' :: rest =>
    match rest with
    | '\r' :: '\n' :: rest2 => some rest2
    | '\n' :: rest2 => some rest2
    | _ => none
  | _ => none

/-- The lazy body of the frontmatter regex: scan for the earliest newline
followed by three dashes; an immediately preceding CR is consumed by the
optional CR of the closing delimiter and excluded from the body. -/
def fmFindClose : List Char → List Char → Option (List Char)
  | acc, '\r' :: '\n' :: '-' :: '-' :: '-' :: _ => some acc.reverse
  | acc, '\n' :: '-' :: '-' :: '-' :: _ => some acc.reverse
  | acc, c :: rest => fmFindClose (c :: acc) rest
  | _, [] => none

/-- The captured frontmatter body of the FRONTMATTER regex in health.js,
or none when the document has no frontmatter block. -/
def fmContent (content : String) : Option (List Char) :=
  match fmOpen content.data with
  | none => none
  | some rest => fmFindClose [] rest

/-- Match of the name-field regex at one position: the literal name,
optional regex whitespace, then a colon (case-sensitive). -/
def nameMatchAt : List Char → Bool
  | 'n' :: 'a' :: 'm' :: 'e' :: rest =>
      match rest.dropWhile isJsSpaceChar with
      | ':' :: _ => true
      | _ => false
  | _ => false

/-- Scan all line-start positions of the frontmatter body for a name
field. -/
def nameScanAux : Bool → List Char → Bool
  | _, [] => false
  | atStart, c :: rest =>
      (atStart && nameMatchAt (c :: rest)) || nameScanAux (isJsLineTerm c) rest

/-- hasSkillFrontmatter from health.js: the document starts with a
frontmatter block whose body contains a name field. -/
def hasSkillFrontmatter (content : String) : Bool :=
  match fmContent content with
  | none => false
  | some body => nameScanAux true body

/-- A markdown file collected by the health reporter. -/
structure MdFile where
  path : String
  content : String
deriving DecidableEq, Repr

/-- The structured detail attached to a warn result of the dof rule. -/
structure DofDetail where
  missing : List String
  ctaUrl : String
  ctaText : String
deriving DecidableEq, Repr

/-- A health check result; detail is none when absent. -/
structure HealthCheckResult where
  rule : String
  status : String
  message : String
  detail : Option DofDetail
deriving DecidableEq, Repr

/-- The call-to-action URL constant of health.js. -/
def CTA_URL : String := "https://github.com/ForgeVista/fv-skills-command"

/-- checkDof from health.js (rule id dof): pass when there are no
header-bearing (skill frontmatter) files or when every such file has a
structure heading; warn otherwise, listing the offending paths.  The
source for-loop collecting missing paths is the filter-map below. -/
def checkDof (mdFiles : List MdFile) : HealthCheckResult :=
  let skillFiles := mdFiles.filter (fun f => hasSkillFrontmatter f.content)
  if skillFiles.length = 0 then
    { rule := "dof", status := "pass",
      message := "No skill files to check for structure.", detail := none }
  else
    let missing := (skillFiles.filter
      (fun f => !(hasDofHeading f.content))).map (fun f => f.path)
    if missing.length = 0 then
      { rule := "dof", status := "pass",
        message := "Every skill has a Description, Output, or Format section.",
        detail := none }
    else
      { rule := "dof", status := "warn",
        message := toString missing.length ++ " skill" ++
          (if missing.length = 1 then " is" else "s are") ++
          " missing a Description, Output, or Format heading. Adding one makes the skill easier to understand at a glance.",
        detail := some ⟨missing, CTA_URL, "Add structure sections"⟩ }

/-! ### Document discovery (health.js collectMarkdownFiles and the
Tauri adapter skillFileCount walk) -/

/-- A filesystem tree backing the I/O adapter: readFile succeeds exactly
on file entries and listDir exactly on directory entries. -/
inductive FsEntry where
  | file (content : String)
  | dir (entries : List (String × FsEntry))
deriving Repr

/-- JavaScript String.prototype.endsWith on the character lists. -/
def jsEndsWith (s suf : String) : Bool :=
  s.data.reverse.take suf.data.length == suf.data.reverse

/-- JavaScript String.prototype.startsWith on the character lists. -/
def jsStartsWith (s pre : String) : Bool :=
  s.data.take pre.data.length == pre.data

/-- The path join of the walk: dir slash name, or name at the root. -/
def joinPath (dir name : String) : String :=
  if dir = "" then name else dir ++ "/" ++ name

/-- The walk of collectMarkdownFiles from health.js over an adapter
backed by a filesystem tree: hidden entries are skipped; an entry whose
name ends in the lowercase extension is read (readFile of a directory is
null, so such a directory is skipped); any other entry is probed with
listDir (empty for files) and walked when non-empty. -/
def walkMd (dirPath : String) : List (String × FsEntry) → List (String × String)
  | [] => []
  | (name, e) :: rest =>
    (if jsStartsWith name "." then []
     else if jsEndsWith name ".md" then
       match e with
       | .file c => [(joinPath dirPath name, c)]
       | .dir _ => []
     else
       match e with
       | .file _ => []
       | .dir sub => if sub.length > 0 then walkMd (joinPath dirPath name) sub else [])
    ++ walkMd dirPath rest

/-- collectMarkdownFiles from health.js, starting at the root. -/
def collectMarkdownFiles (root : List (String × FsEntry)) : List (String × String) :=
  walkMd "" root

/-- The walk of skillFileCount from the Tauri adapter in the same source
file as graph.js: count entries whose name ends in the lowercase
extension (a directory with such a name is counted, not walked), recurse
into other directories, skip hidden entries. -/
def countMdWalk : List (String × FsEntry) → Nat
  | [] => 0
  | (name, e) :: rest =>
    (if jsStartsWith name "." then 0
     else if jsEndsWith name ".md" then 1
     else
       match e with
       | .file _ => 0
       | .dir sub => countMdWalk sub)
    + countMdWalk rest

/-- skillFileCount from the Tauri adapter. -/
def skillFileCount (root : List (String × FsEntry)) : Nat := countMdWalk root

/-! ### Invariant vocabulary for the Tarjan run -/

/-- A node is accounted for by the state: still on the stack or already
emitted inside a component. -/
def covered (st : TarjanState) (x : String) : Prop :=
  x ∈ st.stack ∨ ∃ c ∈ st.components, x ∈ c

/-- Well-formedness of a Tarjan state: stack members are indexed, the
stack and the onStack set are duplicate-free, and the onStack set mirrors
the stack. -/
def tarjanWF (st : TarjanState) : Prop :=
  (∀ x ∈ st.stack, (jmGet st.indexByNode x).isSome = true) ∧
  st.stack.Nodup ∧ st.onStack.Nodup ∧
  (∀ x, x ∈ st.onStack ↔ x ∈ st.stack)

/-- Number of vertices of the universe not yet indexed. -/
def unindexedCount (univ : List String) (st : TarjanState) : Nat :=
  (univ.filter (fun k => (jmGet st.indexByNode k).isNone)).length

/-- The pre-condensation builder output of buildSkillsGraph (nodes and
edges before cycle condensation), exposed for the statement of the
condensation claims. -/
def builderCore (rawSkills : List RawSkill) : JsMap Node × JsMap Edge :=
  let skills := parseSkillInput rawSkills
  buildGraphCore skills (createWikiLinkResolver (collectKnownSkills skills))

/-- The node list of the builder output. -/
def builderNodes (rawSkills : List RawSkill) : List Node :=
  jmValues (builderCore rawSkills).1

/-- The edge list of the builder output. -/
def builderEdges (rawSkills : List RawSkill) : List Edge :=
  jmValues (builderCore rawSkills).2

/-- The SCC-eligible ids of the builder output (neither ghost, nor
script, nor cycle typed). -/
def eligibleIds (rawSkills : List RawSkill) : List String :=
  (buildCycleAdjacency (builderNodes rawSkills) (builderEdges rawSkills)).2

/-! ### Tarjan entry state, neighbor step and run invariants -/

/-- The neighbor-visiting step of strongConnect, named for the fold
lemmas. -/
def tarjanStep (adj : JsMap (List String)) (fuel : Nat) (u : String)
    (acc : TarjanState) (n : String) : TarjanState :=
  if (jmGet acc.indexByNode n).isNone then
    let stA := strongConnect adj fuel n acc
    setLow stA u (min (getLow stA u) (getLow stA n))
  else if n ∈ acc.onStack then
    setLow acc u (min (getLow acc u) (getIdx acc n))
  else acc

/-- The entry state pushed by strongConnect before visiting neighbors. -/
def tarjanEnter (u : String) (st : TarjanState) : TarjanState :=
  { indexByNode := jmSet st.indexByNode u st.index
    lowLinkByNode := jmSet st.lowLinkByNode u st.index
    onStack := if u ∈ st.onStack then st.onStack else st.onStack ++ [u]
    stack := u :: st.stack
    components := st.components
    index := st.index + 1 }

def scSpec (B : Nat) (u : String) (st st2 : TarjanState) : Prop :=
  (∀ x i, jmGet st.indexByNode x = some i → jmGet st2.indexByNode x = some i) ∧
  (∀ x, (jmGet st.indexByNode x).isSome = true →
      jmGet st2.lowLinkByNode x = jmGet st.lowLinkByNode x) ∧
  tarjanWF st2 ∧
  st.index ≤ st2.index ∧
  (∃ ext, st2.stack = ext ++ st.stack ∧ ∀ x ∈ ext, jmGet st.indexByNode x = none) ∧
  (∀ x, covered st x → covered st2 x) ∧
  (∃ cs, st2.components = st.components ++ cs) ∧
  (∀ x i, jmGet st2.indexByNode x = some i →
      (jmGet st.indexByNode x).isSome = true ∨ B ≤ i) ∧
  (∃ lu, jmGet st2.lowLinkByNode u = some lu ∧ B ≤ lu) ∧
  (jmGet st2.indexByNode u).isSome = true ∧
  (∀ x, (jmGet st2.indexByNode x).isSome = true → covered st2 x) ∧
  (st.stack = [] → B = st.index →
      (∃ c ∈ st2.components, u ∈ c) ∧ st2.stack = [])

/-- The invariant maintained over the neighbor fold of strongConnect:
st is the entry state, st1 the state after pushing u with index I, B the
lower bound on stack indices. -/
def tarjanFoldInv (univ : List String) (st st1 : TarjanState) (u : String)
    (I B : Nat) (acc : TarjanState) : Prop :=
  tarjanWF acc ∧
  st1.index ≤ acc.index ∧
  (∀ x ∈ acc.stack, ∀ i, jmGet acc.indexByNode x = some i → B ≤ i) ∧
  unindexedCount univ acc ≤ unindexedCount univ st1 ∧
  (∀ x i, jmGet st1.indexByNode x = some i → jmGet acc.indexByNode x = some i) ∧
  (∀ x, (jmGet st.indexByNode x).isSome = true →
      jmGet acc.lowLinkByNode x = jmGet st.lowLinkByNode x) ∧
  (∃ ext, acc.stack = ext ++ st1.stack ∧
      ∀ x ∈ ext, jmGet st1.indexByNode x = none) ∧
  (∀ x, covered st1 x → covered acc x) ∧
  (∃ cs, acc.components = st1.components ++ cs) ∧
  (∃ lu, jmGet acc.lowLinkByNode u = some lu ∧ B ≤ lu ∧ lu ≤ I) ∧
  (∀ x i, jmGet acc.indexByNode x = some i →
      (jmGet st.indexByNode x).isSome = true ∨ B ≤ i) ∧
  jmGet acc.indexByNode u = some I ∧
  (∀ x, (jmGet acc.indexByNode x).isSome = true → covered acc x)

/-! #### MARKER: further definitions are inserted above this line -/

/-! ### Lemmas: invariants of the normalizer output, towards idempotence -/

theorem mem_collapseDashes {c : Char} : ∀ {s : List Char}, c ∈ collapseDashes s → c ∈ s
  | [], h => by simp [collapseDashes] at h
  | [a], h => by rw [show collapseDashes [a] = [a] from rfl] at h; exact h
  | a :: b :: rest, h => by
    by_cases hab : a = '-' ∧ b = '-'
    · have := mem_collapseDashes (s := b :: rest) (by simpa [collapseDashes, hab] using h)
      exact List.mem_cons_of_mem a this
    · rcases by simpa [collapseDashes, hab] using h with h1 | h2
      · simp [h1]
      · exact List.mem_cons_of_mem a (mem_collapseDashes (s := b :: rest) h2)

theorem head?_collapseDashes : ∀ (x : Char) (xs : List Char),
    (collapseDashes (x :: xs)).head? = some x
  | x, [] => rfl
  | x, y :: ys => by
    rw [collapseDashes]
    by_cases hxy : x = '-' ∧ y = '-'
    · rw [if_pos hxy, head?_collapseDashes y ys, hxy.1, hxy.2]
    · rw [if_neg hxy]
      rfl

theorem noDoubleDash_collapseDashes : ∀ s : List Char, NoDoubleDash (collapseDashes s)
  | [] => by simp [collapseDashes, NoDoubleDash]
  | [c] => by simp [collapseDashes, NoDoubleDash]
  | a :: b :: rest => by
    rw [collapseDashes]
    by_cases hab : a = '-' ∧ b = '-'
    · rw [if_pos hab]
      exact noDoubleDash_collapseDashes (b :: rest)
    · rw [if_neg hab]
      have htail := noDoubleDash_collapseDashes (b :: rest)
      refine List.chain'_cons'.mpr ⟨?_, htail⟩
      intro y hy
      rw [head?_collapseDashes b rest] at hy
      cases hy
      exact hab

theorem collapseDashes_eq_self : ∀ s : List Char, NoDoubleDash s → collapseDashes s = s
  | [], _ => rfl
  | [c], _ => rfl
  | a :: b :: rest, h => by
    have hab : ¬(a = '-' ∧ b = '-') := (List.chain'_cons.mp h).1
    rw [collapseDashes]
    simp only [hab, if_false]
    rw [collapseDashes_eq_self (b :: rest) (List.chain'_cons.mp h).2]

theorem noDoubleDash_tail {s : List Char} (h : NoDoubleDash s) : NoDoubleDash s.tail := by
  cases s with
  | nil => exact h
  | cons a rest => exact (List.chain'_cons'.mp h).2

theorem noDoubleDash_dropLast : ∀ {s : List Char}, NoDoubleDash s → NoDoubleDash s.dropLast
  | [], h => h
  | [a], _ => by simp [NoDoubleDash]
  | a :: b :: rest, h => by
    have h1 := (List.chain'_cons.mp h).1
    have h2 := noDoubleDash_dropLast (s := b :: rest) (List.chain'_cons.mp h).2
    rw [List.dropLast_cons₂]
    cases rest with
    | nil => simp [NoDoubleDash]
    | cons c cs =>
      refine List.chain'_cons'.mpr ⟨?_, h2⟩
      intro y hy
      rw [List.dropLast_cons₂] at hy
      simp only [List.head?_cons, Option.some.injEq] at hy
      cases hy
      exact h1

theorem mem_dropLast {c : Char} {s : List Char} (h : c ∈ s.dropLast) : c ∈ s := by
  have := List.dropLast_sublist s
  exact this.mem h

theorem mem_stripEdgeDashes {c : Char} {s : List Char} (h : c ∈ stripEdgeDashes s) : c ∈ s := by
  unfold stripEdgeDashes at h
  dsimp at h
  split at h
  · split at h
    · exact List.tail_sublist s |>.mem (mem_dropLast h)
    · exact List.tail_sublist s |>.mem h
  · split at h
    · exact mem_dropLast h
    · exact h

theorem dropWhile_eq_self_of {p : Char → Bool} :
    ∀ {l : List Char}, (∀ c ∈ l, p c = false) → l.dropWhile p = l
  | [], _ => rfl
  | a :: t, h => by
    rw [List.dropWhile_cons, h a (List.mem_cons_self a t)]
    simp

theorem jsTrimList_eq_self {s : List Char} (h : ∀ c ∈ s, isJsWhitespaceChar c = false) :
    jsTrimList s = s := by
  unfold jsTrimList
  rw [dropWhile_eq_self_of h,
    dropWhile_eq_self_of (fun c hc => h c (List.mem_reverse.mp hc)), List.reverse_reverse]

theorem stripMdSuffixList_eq_self {s : List Char} (h : ∀ c ∈ s, ¬ c = '.') :
    stripMdSuffixList s = s := by
  unfold stripMdSuffixList
  split
  · next c1 c2 c3 rest hrev =>
    rw [if_neg]
    intro hcon
    have hc3 : c3 ∈ s := by
      have hmem : c3 ∈ s.reverse := by rw [hrev]; simp
      exact List.mem_reverse.mp hmem
    exact h c3 hc3 hcon.2.2
  · rfl

theorem isCanonOrDash_cases {c : Char} (h : isCanonOrDash c = true) :
    (97 ≤ c.toNat ∧ c.toNat ≤ 122) ∨ (48 ≤ c.toNat ∧ c.toNat ≤ 57) ∨ c.toNat = 45 := by
  have h2 := h
  simp only [isCanonOrDash, isCanonChar, Bool.or_eq_true, decide_eq_true_eq] at h2
  rcases h2 with (h3 | h3) | h3
  · exact Or.inl h3
  · exact Or.inr (Or.inl h3)
  · subst h3; exact Or.inr (Or.inr rfl)

theorem toLower_eq_self_of_canonOrDash {c : Char} (h : isCanonOrDash c = true) :
    Char.toLower c = c := by
  have hn := isCanonOrDash_cases h
  unfold Char.toLower
  rw [if_neg]
  simp only [ge_iff_le, Bool.and_eq_true, decide_eq_true_eq, not_and]
  omega

theorem not_ws_of_canonOrDash {c : Char} (h : isCanonOrDash c = true) :
    isJsWhitespaceChar c = false := by
  have hn := isCanonOrDash_cases h
  simp only [isJsWhitespaceChar, Bool.decide_or, Bool.decide_and, Bool.or_eq_false_iff,
    Bool.and_eq_false_iff, decide_eq_false_iff_not]
  omega

theorem ne_dot_of_canonOrDash {c : Char} (h : isCanonOrDash c = true) : ¬ c = '.' := by
  intro hc
  subst hc
  have hn := isCanonOrDash_cases h
  rw [show ('.' : Char).toNat = 46 from rfl] at hn
  omega

theorem dashifyList_eq_self {s : List Char} (h : ∀ c ∈ s, isCanonOrDash c = true) :
    dashifyList s = s := by
  unfold dashifyList
  induction s with
  | nil => rfl
  | cons a t ih =>
    have ha := h a (List.mem_cons_self a t)
    have hfix : (if isCanonChar a then a else '-') = a := by
      by_cases hc : isCanonChar a
      · rw [if_pos hc]
      · rw [if_neg hc]
        have := ha
        simp only [isCanonOrDash, Bool.or_eq_true, decide_eq_true_eq] at this
        rcases this with h1 | h1
        · exact absurd h1 hc
        · rw [h1]
    simp only [List.map_cons, hfix]
    rw [show List.map (fun c => if isCanonChar c then c else '-') t = t from
      ih (fun c hc => h c (List.mem_cons_of_mem a hc))]

theorem map_toLower_eq_self {s : List Char} (h : ∀ c ∈ s, isCanonOrDash c = true) :
    s.map Char.toLower = s := by
  induction s with
  | nil => rfl
  | cons a t ih =>
    simp only [List.map_cons, toLower_eq_self_of_canonOrDash (h a (List.mem_cons_self a t))]
    rw [ih (fun c hc => h c (List.mem_cons_of_mem a hc))]

theorem mem_dashifyList {c : Char} {s : List Char} (h : c ∈ dashifyList s) :
    isCanonOrDash c = true := by
  unfold dashifyList at h
  rcases List.mem_map.mp h with ⟨a, _, ha⟩
  by_cases hc : isCanonChar a
  · rw [if_pos hc] at ha
    subst ha
    simp [isCanonOrDash, hc]
  · rw [if_neg hc] at ha
    subst ha
    simp [isCanonOrDash]

theorem head_of_tail_ne_dash {t : List Char} (h : NoDoubleDash ('-' :: t)) :
    t.head? ≠ some '-' := by
  cases t with
  | nil => simp
  | cons x t2 =>
    have := (List.chain'_cons.mp h).1
    intro hx
    simp only [List.head?_cons, Option.some.injEq] at hx
    exact this ⟨rfl, hx⟩

theorem getLast?_dropLast_ne_dash :
    ∀ {s : List Char}, NoDoubleDash s → s.getLast? = some '-' →
      s.dropLast.getLast? ≠ some '-'
  | [], _, hl => by simp at hl
  | [a], _, _ => by simp
  | a :: b :: t, h, hl => by
    have h1 := (List.chain'_cons.mp h).1
    have h2 := (List.chain'_cons.mp h).2
    rw [List.dropLast_cons₂]
    cases t with
    | nil =>
      have hb : b = '-' := by simpa using hl
      have ha : ¬ a = '-' := fun hc => h1 ⟨hc, hb⟩
      simpa using ha
    | cons c t2 =>
      have hl2 : (b :: c :: t2).getLast? = some '-' := by
        rw [← hl]
        rfl
      have ih := getLast?_dropLast_ne_dash h2 hl2
      rw [List.dropLast_cons₂] at ih ⊢
      intro hcon
      apply ih
      rw [← hcon]
      cases hdl : (c :: t2).dropLast with
      | nil => rfl
      | cons d t3 => rfl

theorem head?_of_dropLast {s : List Char} {c : Char}
    (h : s.dropLast.head? = some c) : s.head? = some c := by
  cases s with
  | nil => simp at h
  | cons a t =>
    cases t with
    | nil => simp at h
    | cons b t2 =>
      rw [List.dropLast_cons₂] at h
      simpa using h

theorem stripEdgeDashes_facts {s : List Char} (h : NoDoubleDash s) :
    NoDoubleDash (stripEdgeDashes s) ∧ (stripEdgeDashes s).head? ≠ some '-' ∧
      (stripEdgeDashes s).getLast? ≠ some '-' := by
  unfold stripEdgeDashes
  have hs1 : NoDoubleDash (if s.head? = some '-' then s.tail else s) ∧
      (if s.head? = some '-' then s.tail else s).head? ≠ some '-' := by
    by_cases hh : s.head? = some '-'
    · simp only [if_pos hh]
      cases s with
      | nil => simp at hh
      | cons a t =>
        have ha : a = '-' := by simpa using hh
        subst ha
        exact ⟨noDoubleDash_tail h, head_of_tail_ne_dash h⟩
    · simp only [if_neg hh]
      exact ⟨h, hh⟩
  set s1 := if s.head? = some '-' then s.tail else s with hs1def
  rcases hs1 with ⟨hnd1, hh1⟩
  by_cases hl : s1.getLast? = some '-'
  · rw [if_pos hl]
    refine ⟨noDoubleDash_dropLast hnd1, ?_, getLast?_dropLast_ne_dash hnd1 hl⟩
    intro hcon
    exact hh1 (head?_of_dropLast hcon)
  · rw [if_neg hl]
    exact ⟨hnd1, hh1, hl⟩

theorem stripEdgeDashes_eq_self {s : List Char} (hh : s.head? ≠ some '-')
    (hl : s.getLast? ≠ some '-') : stripEdgeDashes s = s := by
  unfold stripEdgeDashes
  rw [if_neg hh]
  exact if_neg hl

theorem normalizeDashSeparatedList_invariants (s : List Char) :
    (∀ c ∈ normalizeDashSeparatedList s, isCanonOrDash c = true) ∧
      NoDoubleDash (normalizeDashSeparatedList s) ∧
      (normalizeDashSeparatedList s).head? ≠ some '-' ∧
      (normalizeDashSeparatedList s).getLast? ≠ some '-' := by
  unfold normalizeDashSeparatedList
  set base := dashifyList (stripMdSuffixList ((jsTrimList s).map Char.toLower)) with hbase
  have hnd := noDoubleDash_collapseDashes base
  have hfacts := stripEdgeDashes_facts hnd
  refine ⟨?_, hfacts.1, hfacts.2.1, hfacts.2.2⟩
  intro c hc
  exact mem_dashifyList (mem_collapseDashes (mem_stripEdgeDashes hc))

theorem normalizeDashSeparatedList_idem (s : List Char) :
    normalizeDashSeparatedList (normalizeDashSeparatedList s) =
      normalizeDashSeparatedList s := by
  rcases normalizeDashSeparatedList_invariants s with ⟨hcanon, hnd, hh, hl⟩
  set out := normalizeDashSeparatedList s with hout
  show normalizeDashSeparatedList out = out
  unfold normalizeDashSeparatedList
  rw [jsTrimList_eq_self (fun c hc => not_ws_of_canonOrDash (hcanon c hc)),
    map_toLower_eq_self hcanon,
    stripMdSuffixList_eq_self (fun c hc => ne_dot_of_canonOrDash (hcanon c hc)),
    dashifyList_eq_self hcanon,
    collapseDashes_eq_self out hnd,
    stripEdgeDashes_eq_self hh hl]

/-! ### Lemmas about the JsMap model -/

theorem jmGet_cons {α : Type} (p : String × α) (m : JsMap α) (k : String) :
    jmGet (p :: m) k = if p.1 = k then some p.2 else jmGet m k := by
  unfold jmGet
  by_cases h : p.1 = k
  · simp [List.find?_cons, h]
  · simp [List.find?_cons, h]

theorem jmHas_cons {α : Type} (p : String × α) (m : JsMap α) (k : String) :
    jmHas (p :: m) k = (p.1 == k || jmHas m k) := by
  unfold jmHas
  simp [List.any_cons]

theorem jmHas_eq_isSome {α : Type} (m : JsMap α) (k : String) :
    jmHas m k = (jmGet m k).isSome := by
  induction m with
  | nil => rfl
  | cons p rest ih =>
    rw [jmHas_cons, jmGet_cons]
    by_cases h : p.1 = k
    · simp [h]
    · simp [h, ih]

theorem jmGet_mapUpdate {α : Type} (m : JsMap α) (k k' : String) (v : α) :
    jmGet (m.map fun p => if p.1 == k then (k, v) else p) k' =
      if k' = k then (if jmHas m k then some v else none) else jmGet m k' := by
  induction m with
  | nil =>
    by_cases h : k' = k <;> simp [h, jmGet, jmHas]
  | cons p rest ih =>
    rw [List.map_cons]
    by_cases hp : p.1 = k
    · have hb : (p.1 == k) = true := by simpa using hp
      rw [if_pos hb, jmGet_cons, jmHas_cons, jmGet_cons]
      by_cases hk : k' = k
      · subst hk
        simp [hb]
      · have hkk : ¬ (k : String) = k' := fun hc => hk hc.symm
        rw [if_neg hkk, if_neg hk, ih, if_neg hk]
        have hp' : ¬ p.1 = k' := by rw [hp]; exact hkk
        rw [if_neg hp']
    · have hb : (p.1 == k) = false := by simpa using hp
      rw [if_neg (by simp [hb]), jmGet_cons, jmHas_cons, jmGet_cons, hb]
      by_cases hk : k' = k
      · subst hk
        rw [if_pos rfl, ih, if_pos rfl]
        simp [hp]
      · rw [if_neg hk, ih, if_neg hk]

theorem jmGet_append_single {α : Type} (m : JsMap α) (k k' : String) (v : α) :
    jmGet (m ++ [(k, v)]) k' =
      match jmGet m k' with
      | some w => some w
      | none => if k = k' then some v else none := by
  induction m with
  | nil =>
    by_cases h : k = k' <;> simp [jmGet, List.find?_cons, h]
  | cons p rest ih =>
    rw [List.cons_append, jmGet_cons, jmGet_cons]
    by_cases hp : p.1 = k'
    · simp [hp]
    · simp only [hp, if_false]
      exact ih

theorem jmGet_eq_none_of_not_has {α : Type} {m : JsMap α} {k : String}
    (hh : ¬ jmHas m k = true) : jmGet m k = none := by
  have hs := jmHas_eq_isSome m k
  rcases ho : jmGet m k with _ | w
  · rfl
  · rw [ho] at hs
    simp only [Option.isSome_some] at hs
    exact absurd hs hh

theorem jmGet_jmSet {α : Type} (m : JsMap α) (k k' : String) (v : α) :
    jmGet (jmSet m k v) k' = if k' = k then some v else jmGet m k' := by
  unfold jmSet
  by_cases hh : jmHas m k
  · rw [if_pos hh, jmGet_mapUpdate]
    by_cases hk : k' = k
    · simp [hk, hh]
    · simp [hk]
  · rw [if_neg hh, jmGet_append_single]
    by_cases hk : k' = k
    · subst hk
      rw [jmGet_eq_none_of_not_has hh]
    · have hkk : ¬ (k : String) = k' := fun hc => hk hc.symm
      rcases ho : jmGet m k' with _ | w
      · simp [ho, hk, hkk]
      · simp [ho, hk]

theorem jmGet_jmSet_self {α : Type} (m : JsMap α) (k : String) (v : α) :
    jmGet (jmSet m k v) k = some v := by
  rw [jmGet_jmSet, if_pos rfl]

theorem jmGet_jmModify {α : Type} (m : JsMap α) (k k' : String) (f : α → α) :
    jmGet (jmModify m k f) k' =
      if k' = k then (jmGet m k).map f else jmGet m k' := by
  unfold jmModify
  induction m with
  | nil => by_cases h : k' = k <;> simp [h, jmGet]
  | cons p rest ih =>
    rw [List.map_cons]
    by_cases hp : p.1 = k
    · have hb : (p.1 == k) = true := by simpa using hp
      rw [if_pos hb]
      simp only [jmGet_cons]
      by_cases hk : k' = k
      · subst hk
        simp [hp]
      · have hkk : ¬ (k : String) = k' := fun hc => hk hc.symm
        have hp' : ¬ p.1 = k' := by rw [hp]; exact hkk
        simp only [beq_iff_eq] at ih
        simp [hkk, hk, hp', ih]
    · have hb : (p.1 == k) = false := by simpa using hp
      rw [if_neg (by simp [hb])]
      simp only [jmGet_cons]
      simp only [beq_iff_eq] at ih
      by_cases hk : k' = k
      · subst hk
        simp [hp, ih]
      · simp [hk, ih]

/-! ### Claim C9: idempotence of identifier normalization -/

/-- C9: identifier normalization is idempotent: for every string s,
normalize (normalize s) = normalize s, where normalize trims,
ASCII-lowercases, strips one trailing dot-md, replaces maximal runs of
characters outside the class a-z, 0-9 with a single dash, collapses dash
runs, and strips leading and trailing dashes. -/
theorem C9_normalize_idempotent (s : String) :
    normalizeDashSeparated (normalizeDashSeparated s) = normalizeDashSeparated s :=
  congrArg String.mk (normalizeDashSeparatedList_idem s.data)

/-! ### Claim C5: determinism of the builder -/

/-- C5: buildSkillsGraph is deterministic: the embedding is a pure
function of the record list and the option set, so two runs on the same
input produce identical outputs, including node and edge order, attribute
values and cycle numbering.  The source has no other inputs on this code
path (no clock, no randomness; map iteration order is insertion order). -/
theorem C5_buildSkillsGraph_deterministic (rawSkills : List RawSkill)
    (options : GraphOptions) :
    buildSkillsGraph rawSkills options = buildSkillsGraph rawSkills options := rfl

/-! ### Claim C3: the bidirectional pair scenario -/

/-- C3: for records name a related b and name b related a, with
condensation enabled, the graph has exactly one node, the supernode
cycle:1 of kind cycle with members a, b; the condensed edge set is empty;
the cycles list has length one; and the node count of meta is one. -/
theorem C3_bidirectional_pair :
    (buildSkillsGraph [{ mkRaw "a" with related := ["b"] },
        { mkRaw "b" with related := ["a"] }] defaultGraphOptions).nodes.map
      (fun n => (n.id, n.type, n.members)) = [("cycle:1", "cycle", ["a", "b"])] ∧
    (buildSkillsGraph [{ mkRaw "a" with related := ["b"] },
        { mkRaw "b" with related := ["a"] }] defaultGraphOptions).edges = [] ∧
    (buildSkillsGraph [{ mkRaw "a" with related := ["b"] },
        { mkRaw "b" with related := ["a"] }] defaultGraphOptions).cycles.length = 1 ∧
    (buildSkillsGraph [{ mkRaw "a" with related := ["b"] },
        { mkRaw "b" with related := ["a"] }] defaultGraphOptions).meta.nodeCount = 1 := by
  decide

/-! ### Claim C2: node upsert on colliding real records -/

/-- C2 counterexample: two real records named capital A and lowercase a
collide on the normalized id a; the surviving label is the one of the
SECOND record (the object spread lets the incoming node win), not the
label of the first-inserted record as the claim states. -/
theorem C2_counterexample :
    (buildSkillsGraph [mkRaw "A", mkRaw "a"] defaultGraphOptions).nodes.map
      (fun n => n.label) = ["a"] ∧ ("a" : String) ≠ "A" := by
  decide

/-- C2 amended: when two real (non-ghost) nodes collide on the same id,
the upsert keeps the LATER record for every display attribute (label,
kind, category, status, color); only members keeps the pre-existing
value.  Last record wins for display. -/
theorem C2_amended_upsert_last_wins (nodeMap : JsMap Node) (node existing : Node)
    (hget : jmGet nodeMap node.id = some existing)
    (hreal : existing.isGhost = false) :
    jmGet (upsertNode nodeMap node) node.id = some (mergeNode existing node) ∧
    (mergeNode existing node).label = node.label ∧
    (mergeNode existing node).type = node.type ∧
    (mergeNode existing node).category = node.category ∧
    (mergeNode existing node).status = node.status ∧
    (mergeNode existing node).color = node.color ∧
    (mergeNode existing node).members = existing.members := by
  have hmerge : mergeNode existing node = { node with members := existing.members } := by
    unfold mergeNode
    rw [if_neg]
    intro hcon
    rw [hreal] at hcon
    exact Bool.false_ne_true hcon.1
  refine ⟨?_, ?_, ?_, ?_, ?_, ?_, ?_⟩
  · unfold upsertNode
    rw [hget]
    exact jmGet_jmSet_self nodeMap node.id (mergeNode existing node)
  · rw [hmerge]
  · rw [hmerge]
  · rw [hmerge]
  · rw [hmerge]
  · rw [hmerge]
  · rw [hmerge]

/-- Witness for the amended C2 at a concrete collision. -/
theorem C2_amended_witness :
    jmGet (upsertNode [("a", nodeFromSkill
        ⟨"a", "A", "skill", false, "", "", "", "", "", [], [], [], []⟩)]
      (nodeFromSkill ⟨"a", "a", "skill", false, "", "", "", "", "", [], [], [], []⟩)) "a" =
      some (mergeNode (nodeFromSkill ⟨"a", "A", "skill", false, "", "", "", "", "", [], [], [], []⟩)
        (nodeFromSkill ⟨"a", "a", "skill", false, "", "", "", "", "", [], [], [], []⟩)) ∧
    (mergeNode (nodeFromSkill ⟨"a", "A", "skill", false, "", "", "", "", "", [], [], [], []⟩)
      (nodeFromSkill ⟨"a", "a", "skill", false, "", "", "", "", "", [], [], [], []⟩)).label = "a" := by
  have h := C2_amended_upsert_last_wins
    [("a", nodeFromSkill ⟨"a", "A", "skill", false, "", "", "", "", "", [], [], [], []⟩)]
    (nodeFromSkill ⟨"a", "a", "skill", false, "", "", "", "", "", [], [], [], []⟩)
    (nodeFromSkill ⟨"a", "A", "skill", false, "", "", "", "", "", [], [], [], []⟩)
    (by decide) (by decide)
  exact ⟨h.1, h.2.1⟩

/-! ### Order properties of the code-point comparator -/

theorem charListLe_total : ∀ a b : List Char, charListLe a b = true ∨ charListLe b a = true
  | [], _ => Or.inl rfl
  | _ :: _, [] => Or.inr rfl
  | x :: xs, y :: ys => by
    rw [charListLe, charListLe]
    by_cases h1 : x.toNat < y.toNat
    · left
      rw [if_pos h1]
    · by_cases h2 : y.toNat < x.toNat
      · right
        rw [if_pos h2]
      · rw [if_neg h1, if_neg h2, if_neg h2, if_neg h1]
        exact charListLe_total xs ys

theorem charListLe_trans : ∀ a b c : List Char,
    charListLe a b = true → charListLe b c = true → charListLe a c = true
  | [], _, _, _, _ => rfl
  | x :: xs, [], _, hab, _ => by rw [charListLe] at hab; exact absurd hab (by simp)
  | x :: xs, y :: ys, [], _, hbc => by
    rw [charListLe] at hbc; exact absurd hbc (by simp)
  | x :: xs, y :: ys, z :: zs, hab, hbc => by
    rw [charListLe] at hab hbc ⊢
    by_cases h1 : x.toNat < y.toNat
    · by_cases h2 : y.toNat < z.toNat
      · rw [if_pos (by omega : x.toNat < z.toNat)]
      · rw [if_neg h2] at hbc
        by_cases h3 : z.toNat < y.toNat
        · rw [if_pos h3] at hbc
          exact absurd hbc (by simp)
        · rw [if_pos (by omega : x.toNat < z.toNat)]
    · rw [if_neg h1] at hab
      by_cases h1' : y.toNat < x.toNat
      · rw [if_pos h1'] at hab
        exact absurd hab (by simp)
      · rw [if_neg h1'] at hab
        by_cases h2 : y.toNat < z.toNat
        · rw [if_pos (by omega : x.toNat < z.toNat)]
        · rw [if_neg h2] at hbc
          by_cases h3 : z.toNat < y.toNat
          · rw [if_pos h3] at hbc
            exact absurd hbc (by simp)
          · rw [if_neg h3] at hbc
            rw [if_neg (by omega : ¬ x.toNat < z.toNat),
              if_neg (by omega : ¬ z.toNat < x.toNat)]
            exact charListLe_trans xs ys zs hab hbc

instance : IsTotal Node nodeLe :=
  ⟨fun a b => charListLe_total a.id.data b.id.data⟩

instance : IsTrans Node nodeLe :=
  ⟨fun a b c hab hbc => charListLe_trans a.id.data b.id.data c.id.data hab hbc⟩

instance : IsTotal Edge edgeLe :=
  ⟨fun a b => charListLe_total a.id.data b.id.data⟩

instance : IsTrans Edge edgeLe :=
  ⟨fun a b c hab hbc => charListLe_trans a.id.data b.id.data c.id.data hab hbc⟩

/-! ### Claim C6: sort order of the exported graph -/

/-- C6 counterexample: for sources a-b and a (one a proper dash-extended
form of the other), the sorted edge array orders the a-b edge first,
because edge ids compare as the strings source, arrow, target, colon,
colon, kind, and the dash compares below the arrow character; the edge
array is therefore NOT sorted ascending by the (source, target, kind)
triple, which would put the a edge first. -/
theorem C6_counterexample :
    (buildSkillsGraph [{ mkRaw "a-b" with related := ["x"] },
        { mkRaw "a" with related := ["x"] }] defaultGraphOptions).edges.map
      (fun e => (e.source, e.target, e.kind)) =
      [("a-b", "unresolved:x", "related"), ("a", "unresolved:x", "related")] ∧
    ¬ (buildSkillsGraph [{ mkRaw "a-b" with related := ["x"] },
        { mkRaw "a" with related := ["x"] }] defaultGraphOptions).edges.Pairwise
      (fun e1 e2 => edgeTripleLeB e1 e2 = true) := by
  decide

/-- C6 amended: in every graph returned by buildSkillsGraph, the nodes
array is sorted ascending by node id and the edges array is sorted
ascending by the edge id string (source, arrow, target, double colon,
kind) under code-point order; as the counterexample shows, this edge id
order does not in general coincide with the (source, target, kind)
triple order. -/
theorem C6_amended_sorted (rawSkills : List RawSkill) (options : GraphOptions) :
    List.Sorted nodeLe (buildSkillsGraph rawSkills options).nodes ∧
    List.Sorted edgeLe (buildSkillsGraph rawSkills options).edges := by
  constructor
  · exact List.sorted_insertionSort nodeLe _
  · exact List.sorted_insertionSort edgeLe _

/-! ### Claim C4: the resolver tier chain -/

/-- C4: for every raw target the resolver returns, in strict tier order:
the ghost with id unresolved:unknown and label unknown on an empty trimmed
target; else the exact-index hit (matched by exact); else the
normalized-index hit on the normalized target (matched by normalized);
else the stem-index hit (matched by filename-stem); else a ghost whose id
is unresolved: followed by the normalized target or unknown, labelled with
the original trimmed target.  First hit wins and repeated calls return
the same verdict. -/
theorem C4_resolver_resolution (ks : List KnownSkill) (t : String) :
    (jsTrim t = "" →
      (createWikiLinkResolver ks).resolve t =
        ⟨false, "ghost", GHOST_MARK ++ "unknown", "unknown"⟩) ∧
    (∀ e, jsTrim t ≠ "" →
      jmGet (createWikiLinkResolver ks).exactIndex (jsTrim t) = some e →
      (createWikiLinkResolver ks).resolve t = ⟨true, "exact", e.id, e.displayName⟩) ∧
    (∀ e, jsTrim t ≠ "" →
      jmGet (createWikiLinkResolver ks).exactIndex (jsTrim t) = none →
      jmGet (createWikiLinkResolver ks).normalizedIndex
          (normalizeDashSeparated (jsTrim t)) = some e →
      (createWikiLinkResolver ks).resolve t = ⟨true, "normalized", e.id, e.displayName⟩) ∧
    (∀ e, jsTrim t ≠ "" →
      jmGet (createWikiLinkResolver ks).exactIndex (jsTrim t) = none →
      jmGet (createWikiLinkResolver ks).normalizedIndex
          (normalizeDashSeparated (jsTrim t)) = none →
      jmGet (createWikiLinkResolver ks).stemIndex
          (normalizeDashSeparated (jsTrim t)) = some e →
      (createWikiLinkResolver ks).resolve t =
        ⟨true, "filename-stem", e.id, e.displayName⟩) ∧
    (jsTrim t ≠ "" →
      jmGet (createWikiLinkResolver ks).exactIndex (jsTrim t) = none →
      jmGet (createWikiLinkResolver ks).normalizedIndex
          (normalizeDashSeparated (jsTrim t)) = none →
      jmGet (createWikiLinkResolver ks).stemIndex
          (normalizeDashSeparated (jsTrim t)) = none →
      (createWikiLinkResolver ks).resolve t =
        ⟨false, "ghost",
          GHOST_MARK ++ jsOr (normalizeDashSeparated (jsTrim t)) "unknown", jsTrim t⟩) ∧
    (createWikiLinkResolver ks).resolve t = (createWikiLinkResolver ks).resolve t := by
  refine ⟨?_, ?_, ?_, ?_, ?_, rfl⟩
  · intro h
    simp only [WikiResolver.resolve, normalizeName]
    rw [if_pos h]
  · intro e hne hex
    simp only [WikiResolver.resolve, normalizeName]
    rw [if_neg hne, hex]
  · intro e hne hex hnorm
    simp only [WikiResolver.resolve, normalizeName]
    rw [if_neg hne, hex, hnorm]
  · intro e hne hex hnorm hstem
    simp only [WikiResolver.resolve, normalizeName]
    rw [if_neg hne, hex, hnorm, hstem]
  · intro hne hex hnorm hstem
    simp only [WikiResolver.resolve, normalizeName]
    rw [if_neg hne, hex, hnorm, hstem]

/-- Witness for C4 at a concrete index hit. -/
theorem C4_witness :
    (createWikiLinkResolver [⟨"alpha", "alpha", "", "", "", "", []⟩]).resolve "alpha" =
      ⟨true, "exact", "alpha", "alpha"⟩ :=
  (C4_resolver_resolution [⟨"alpha", "alpha", "", "", "", "", []⟩] "alpha").2.1
    ⟨"alpha", "alpha", ["alpha", "alpha"], "alpha"⟩ (by decide) (by decide)

/-! ### Lemmas for the adjacency exporter -/

theorem mem_eraseDups_loop {x : String} :
    ∀ (as bs : List String), x ∈ List.eraseDups.loop as bs ↔ x ∈ bs ∨ x ∈ as
  | [], bs => by simp [List.eraseDups.loop]
  | a :: as, bs => by
    rw [List.eraseDups.loop]
    cases hc : List.elem a bs with
    | true =>
      have ha : a ∈ bs := List.elem_iff.mp hc
      simp only [hc]
      rw [mem_eraseDups_loop as bs]
      simp only [List.mem_cons]
      constructor
      · rintro (h | h)
        · exact Or.inl h
        · exact Or.inr (Or.inr h)
      · rintro (h | h | h)
        · exact Or.inl h
        · exact Or.inl (h ▸ ha)
        · exact Or.inr h
    | false =>
      simp only [hc]
      rw [mem_eraseDups_loop as (a :: bs)]
      simp only [List.mem_cons]
      tauto

theorem mem_eraseDups {x : String} {l : List String} :
    x ∈ l.eraseDups ↔ x ∈ l := by
  unfold List.eraseDups
  rw [mem_eraseDups_loop]
  simp

theorem mem_sortStrings {x : String} {l : List String} :
    x ∈ sortStrings l ↔ x ∈ l := by
  unfold sortStrings
  exact List.mem_insertionSort _

theorem mem_toSortedUnique {x : String} {l : List String} :
    x ∈ toSortedUnique l ↔ x ∈ l := by
  unfold toSortedUnique
  rw [mem_sortStrings, mem_eraseDups]

theorem jmHas_jmSet {α : Type} (m : JsMap α) (k k' : String) (v : α) :
    jmHas (jmSet m k v) k' = true ↔ k' = k ∨ jmHas m k' = true := by
  rw [jmHas_eq_isSome, jmGet_jmSet, jmHas_eq_isSome]
  by_cases h : k' = k <;> simp [h]

theorem jmHas_jmModify {α : Type} (m : JsMap α) (k k' : String) (f : α → α) :
    jmHas (jmModify m k f) k' = jmHas m k' := by
  rw [jmHas_eq_isSome, jmGet_jmModify, jmHas_eq_isSome]
  by_cases h : k' = k
  · subst h
    simp
  · rw [if_neg h]

theorem jmHas_iff_mem_keys {α : Type} (m : JsMap α) (k : String) :
    jmHas m k = true ↔ k ∈ jmKeys m := by
  induction m with
  | nil => simp [jmHas, jmKeys]
  | cons p rest ih =>
    rw [jmHas_cons, jmKeys, List.map_cons, List.mem_cons]
    by_cases h : p.1 = k
    · simp [h]
    · have hb : (p.1 == k) = false := by simpa using h
      have : ¬ p.1 = k := h
      simp only [hb, Bool.false_or, List.mem_cons]
      rw [ih]
      constructor
      · exact fun hk => Or.inr hk
      · rintro (hk | hk)
        · exact absurd hk.symm this
        · exact hk
    
theorem exists_get_of_has {α : Type} {m : JsMap α} {k : String}
    (h : jmHas m k = true) : ∃ v, jmGet m k = some v := by
  rw [jmHas_eq_isSome] at h
  rcases ho : jmGet m k with _ | v
  · rw [ho] at h
    simp at h
  · exact ⟨v, rfl⟩

theorem adjNodeFold_keys (options : AdjOptions) (id : String) :
    ∀ (nodes : List Node) (m0 : JsMap AdjBuckets),
    (jmHas (nodes.foldl (adjNodeStep options) m0) id = true ↔
      jmHas m0 id = true ∨ ∃ n ∈ nodes, n.id = id ∧
        ¬(¬ options.includeGhost ∧ n.isGhost) ∧
        ¬(¬ options.includeScripts ∧ n.type = "script") ∧
        ¬(¬ options.includeCycles ∧ n.type = "cycle"))
  | [], m0 => by simp
  | n :: rest, m0 => by
    rw [List.foldl_cons]
    by_cases h1 : ¬ options.includeGhost ∧ n.isGhost
    · have hstep : adjNodeStep options m0 n = m0 := by
        unfold adjNodeStep
        rw [if_pos h1]
      rw [hstep, adjNodeFold_keys options id rest m0]
      constructor
      · rintro (h | ⟨x, hx, hcond⟩)
        · exact Or.inl h
        · exact Or.inr ⟨x, List.mem_cons_of_mem n hx, hcond⟩
      · rintro (h | ⟨x, hx, hid, hc1, hc2, hc3⟩)
        · exact Or.inl h
        · rcases List.mem_cons.mp hx with heq | hmem
          · exact absurd h1 (heq ▸ hc1)
          · exact Or.inr ⟨x, hmem, hid, hc1, hc2, hc3⟩
    · by_cases h2 : ¬ options.includeScripts ∧ n.type = "script"
      · have hstep : adjNodeStep options m0 n = m0 := by
          unfold adjNodeStep
          rw [if_neg h1, if_pos h2]
        rw [hstep, adjNodeFold_keys options id rest m0]
        constructor
        · rintro (h | ⟨x, hx, hcond⟩)
          · exact Or.inl h
          · exact Or.inr ⟨x, List.mem_cons_of_mem n hx, hcond⟩
        · rintro (h | ⟨x, hx, hid, hc1, hc2, hc3⟩)
          · exact Or.inl h
          · rcases List.mem_cons.mp hx with heq | hmem
            · exact absurd h2 (heq ▸ hc2)
            · exact Or.inr ⟨x, hmem, hid, hc1, hc2, hc3⟩
      · by_cases h3 : ¬ options.includeCycles ∧ n.type = "cycle"
        · have hstep : adjNodeStep options m0 n = m0 := by
            unfold adjNodeStep
            rw [if_neg h1, if_neg h2, if_pos h3]
          rw [hstep, adjNodeFold_keys options id rest m0]
          constructor
          · rintro (h | ⟨x, hx, hcond⟩)
            · exact Or.inl h
            · exact Or.inr ⟨x, List.mem_cons_of_mem n hx, hcond⟩
          · rintro (h | ⟨x, hx, hid, hc1, hc2, hc3⟩)
            · exact Or.inl h
            · rcases List.mem_cons.mp hx with heq | hmem
              · exact absurd h3 (heq ▸ hc3)
              · exact Or.inr ⟨x, hmem, hid, hc1, hc2, hc3⟩
        · have hstep : adjNodeStep options m0 n = jmSet m0 n.id ⟨[], [], [], []⟩ := by
            unfold adjNodeStep
            rw [if_neg h1, if_neg h2, if_neg h3]
          rw [hstep, adjNodeFold_keys options id rest (jmSet m0 n.id ⟨[], [], [], []⟩)]
          constructor
          · rintro (h | ⟨x, hx, hcond⟩)
            · rcases (jmHas_jmSet m0 n.id id ⟨[], [], [], []⟩).mp h with heq | hold
              · exact Or.inr ⟨n, List.mem_cons_self n rest, heq.symm, h1, h2, h3⟩
              · exact Or.inl hold
            · exact Or.inr ⟨x, List.mem_cons_of_mem n hx, hcond⟩
          · rintro (h | ⟨x, hx, hid, hc1, hc2, hc3⟩)
            · exact Or.inl ((jmHas_jmSet m0 n.id id ⟨[], [], [], []⟩).mpr (Or.inr h))
            · rcases List.mem_cons.mp hx with heq | hmem
              · subst heq
                exact Or.inl ((jmHas_jmSet m0 x.id id ⟨[], [], [], []⟩).mpr (Or.inl hid.symm))
              · exact Or.inr ⟨x, hmem, hid, hc1, hc2, hc3⟩

theorem adjEdgeStep_keys (m : JsMap AdjBuckets) (e : Edge) (id : String) :
    jmHas (adjEdgeStep m e) id = jmHas m id := by
  unfold adjEdgeStep
  by_cases h : jmHas m e.source
  · rw [if_pos h, jmHas_jmModify]
  · rw [if_neg h]

theorem adjEdgeFold_keys (id : String) :
    ∀ (edges : List Edge) (m : JsMap AdjBuckets),
    jmHas (edges.foldl adjEdgeStep m) id = jmHas m id
  | [], _ => rfl
  | e :: rest, m => by
    rw [List.foldl_cons, adjEdgeFold_keys id rest (adjEdgeStep m e), adjEdgeStep_keys]

theorem bucketsGrow_refl (b : AdjBuckets) : bucketsGrow b b :=
  ⟨fun _ h => h, fun _ h => h, fun _ h => h, fun _ h => h⟩

theorem bucketsGrow_trans {a b c : AdjBuckets} (h1 : bucketsGrow a b)
    (h2 : bucketsGrow b c) : bucketsGrow a c :=
  ⟨fun x hx => h2.1 x (h1.1 x hx), fun x hx => h2.2.1 x (h1.2.1 x hx),
   fun x hx => h2.2.2.1 x (h1.2.2.1 x hx), fun x hx => h2.2.2.2 x (h1.2.2.2 x hx)⟩

theorem bucketsGrow_push (b : AdjBuckets) (e : Edge) :
    bucketsGrow b
      (let kind := canonEdgeKind e.kind
       let b1 := { b with all := b.all ++ [e.target] }
       if kind = "related" then { b1 with related := b1.related ++ [e.target] }
       else if kind = "scripts" then { b1 with scripts := b1.scripts ++ [e.target] }
       else { b1 with wiki := b1.wiki ++ [e.target] }) := by
  by_cases hr : canonEdgeKind e.kind = "related"
  · simp only [hr, if_pos]
    exact ⟨fun x hx => List.mem_append_left _ hx, fun x hx => hx,
      fun x hx => List.mem_append_left _ hx, fun x hx => hx⟩
  · by_cases hs : canonEdgeKind e.kind = "scripts"
    · simp only [hr, hs, if_false, if_pos]
      exact ⟨fun x hx => List.mem_append_left _ hx, fun x hx => hx,
        fun x hx => hx, fun x hx => List.mem_append_left _ hx⟩
    · simp only [hr, hs, if_false]
      exact ⟨fun x hx => List.mem_append_left _ hx,
        fun x hx => List.mem_append_left _ hx, fun x hx => hx, fun x hx => hx⟩

theorem adjEdgeStep_grow (m : JsMap AdjBuckets) (e : Edge) (k : String)
    (b : AdjBuckets) (h : jmGet m k = some b) :
    ∃ b2, jmGet (adjEdgeStep m e) k = some b2 ∧ bucketsGrow b b2 := by
  unfold adjEdgeStep
  by_cases hh : jmHas m e.source
  · rw [if_pos hh]
    by_cases hk : k = e.source
    · subst hk
      refine ⟨_, ?_, bucketsGrow_push b e⟩
      rw [jmGet_jmModify, if_pos rfl, h]
      rfl
    · exact ⟨b, by rw [jmGet_jmModify, if_neg hk, h], bucketsGrow_refl b⟩
  · rw [if_neg hh]
    exact ⟨b, h, bucketsGrow_refl b⟩

theorem adjEdgeFold_grow :
    ∀ (edges : List Edge) (m : JsMap AdjBuckets) (k : String) (b : AdjBuckets),
    jmGet m k = some b →
    ∃ b2, jmGet (edges.foldl adjEdgeStep m) k = some b2 ∧ bucketsGrow b b2
  | [], _, _, b, h => ⟨b, h, bucketsGrow_refl b⟩
  | e :: rest, m, k, b, h => by
    rw [List.foldl_cons]
    rcases adjEdgeStep_grow m e k b h with ⟨b1, hb1, hg1⟩
    rcases adjEdgeFold_grow rest (adjEdgeStep m e) k b1 hb1 with ⟨b2, hb2, hg2⟩
    exact ⟨b2, hb2, bucketsGrow_trans hg1 hg2⟩

theorem adjEdgeStep_insert (m : JsMap AdjBuckets) (e : Edge)
    (h : jmHas m e.source = true) :
    ∃ b2, jmGet (adjEdgeStep m e) e.source = some b2 ∧
      e.target ∈ b2.all ∧ e.target ∈ bucketSel b2 (canonEdgeKind e.kind) := by
  rcases exists_get_of_has h with ⟨b, hb⟩
  unfold adjEdgeStep
  rw [if_pos h, jmGet_jmModify, if_pos rfl, hb]
  by_cases hr : canonEdgeKind e.kind = "related"
  · refine ⟨_, rfl, ?_⟩
    simp only [Option.map_some]
    rw [hr]
    constructor
    · simp [hr]
    · unfold bucketSel
      simp [hr]
  · by_cases hs : canonEdgeKind e.kind = "scripts"
    · refine ⟨_, rfl, ?_⟩
      simp only [Option.map_some]
      rw [hs]
      constructor
      · simp [hr, hs]
      · unfold bucketSel
        simp [hr, hs]
    · refine ⟨_, rfl, ?_⟩
      simp only [Option.map_some]
      constructor
      · simp [hr, hs]
      · unfold bucketSel
        simp [hr, hs]

theorem adjEdgeFold_insert :
    ∀ (edges : List Edge) (m : JsMap AdjBuckets) (e : Edge), e ∈ edges →
    jmHas m e.source = true →
    ∃ b2, jmGet (edges.foldl adjEdgeStep m) e.source = some b2 ∧
      e.target ∈ b2.all ∧ e.target ∈ bucketSel b2 (canonEdgeKind e.kind)
  | [], _, _, he, _ => absurd he (List.not_mem_nil _)
  | e0 :: rest, m, e, he, hh => by
    rw [List.foldl_cons]
    rcases List.mem_cons.mp he with heq | hmem
    · subst heq
      rcases adjEdgeStep_insert m e hh with ⟨b1, hb1, hall, hkind⟩
      rcases adjEdgeFold_grow rest (adjEdgeStep m e) e.source b1 hb1 with ⟨b2, hb2, hg⟩
      refine ⟨b2, hb2, hg.1 _ hall, ?_⟩
      unfold bucketSel at hkind ⊢
      by_cases hr : canonEdgeKind e.kind = "related"
      · rw [if_pos hr] at hkind ⊢
        exact hg.2.2.1 _ hkind
      · by_cases hs : canonEdgeKind e.kind = "scripts"
        · rw [if_neg hr, if_pos hs] at hkind ⊢
          exact hg.2.2.2 _ hkind
        · rw [if_neg hr, if_neg hs] at hkind ⊢
          exact hg.2.1 _ hkind
    · have hh2 : jmHas (adjEdgeStep m e0) e.source = true := by
        rw [adjEdgeStep_keys]
        exact hh
      exact adjEdgeFold_insert rest (adjEdgeStep m e0) e hmem hh2

theorem mem_adjEmit_fold (buckets2 : JsMap AdjBuckets) (p : String × AdjBuckets) :
    ∀ (ks : List String) (out : JsMap AdjBuckets),
    (p ∈ ks.foldl (adjEmit buckets2) out ↔
      p ∈ out ∨ ∃ k ∈ ks, ∃ b, jmGet buckets2 k = some b ∧ p = (k, emitBuckets b))
  | [], out => by simp
  | k0 :: ks, out => by
    rw [List.foldl_cons]
    rcases hb : jmGet buckets2 k0 with _ | b0
    · have hstep : adjEmit buckets2 out k0 = out := by
        unfold adjEmit
        rw [hb]
      rw [hstep, mem_adjEmit_fold buckets2 p ks out]
      constructor
      · rintro (h | ⟨k, hk, b, hgb, hp⟩)
        · exact Or.inl h
        · exact Or.inr ⟨k, List.mem_cons_of_mem k0 hk, b, hgb, hp⟩
      · rintro (h | ⟨k, hk, b, hgb, hp⟩)
        · exact Or.inl h
        · rcases List.mem_cons.mp hk with heq | hmem
          · subst heq
            rw [hb] at hgb
            cases hgb
          · exact Or.inr ⟨k, hmem, b, hgb, hp⟩
    · have hstep : adjEmit buckets2 out k0 = out ++ [(k0, emitBuckets b0)] := by
        unfold adjEmit
        rw [hb]
      rw [hstep, mem_adjEmit_fold buckets2 p ks (out ++ [(k0, emitBuckets b0)])]
      constructor
      · rintro (h | ⟨k, hk, b, hgb, hp⟩)
        · rcases List.mem_append.mp h with h2 | h2
          · exact Or.inl h2
          · rcases List.mem_singleton.mp h2 with rfl
            exact Or.inr ⟨k0, List.mem_cons_self k0 ks, b0, hb, rfl⟩
        · exact Or.inr ⟨k, List.mem_cons_of_mem k0 hk, b, hgb, hp⟩
      · rintro (h | ⟨k, hk, b, hgb, hp⟩)
        · exact Or.inl (List.mem_append_left _ h)
        · rcases List.mem_cons.mp hk with heq | hmem
          · subst heq
            rw [hb] at hgb
            cases hgb
            exact Or.inl (List.mem_append_right _ (by simp [hp]))
          · exact Or.inr ⟨k, hmem, b, hgb, hp⟩

/-! ### Claim C10: exclusion applies to keys, not to values -/

/-- C10: in the adjacency export with the default options (ghost, script
and cycle nodes all excluded), every key of the mapping comes from an
included (real document) node, and targets are never filtered from the
values: any target of an edge whose source is included, in particular a
ghost, script, or cycle id, appears in that source's all list and in the
list of the canonical edge kind. -/
theorem C10_adjacency_default_options (nodes : List Node) (edges : List Edge) :
    (∀ p ∈ buildAdjacencyList nodes edges defaultAdjOptions,
      ∃ n ∈ nodes, n.id = p.1 ∧ n.isGhost = false ∧
        n.type ≠ "script" ∧ n.type ≠ "cycle") ∧
    (∀ e ∈ edges,
      (∃ n ∈ nodes, n.id = e.source ∧ n.isGhost = false ∧
        n.type ≠ "script" ∧ n.type ≠ "cycle") →
      ∃ p ∈ buildAdjacencyList nodes edges defaultAdjOptions, p.1 = e.source ∧
        e.target ∈ p.2.all ∧ e.target ∈ bucketSel p.2 (canonEdgeKind e.kind)) := by
  have hconv : ∀ n : Node,
      (¬(¬ defaultAdjOptions.includeGhost ∧ n.isGhost) ∧
       ¬(¬ defaultAdjOptions.includeScripts ∧ n.type = "script") ∧
       ¬(¬ defaultAdjOptions.includeCycles ∧ n.type = "cycle")) ↔
      (n.isGhost = false ∧ n.type ≠ "script" ∧ n.type ≠ "cycle") := by
    intro n
    simp [defaultAdjOptions]
  constructor
  · intro p hp
    simp only [buildAdjacencyList] at hp
    rw [mem_adjEmit_fold] at hp
    rcases hp with h | ⟨k, _, b, hgb, hp⟩
    · cases h
    · have hkeys : jmHas (edges.foldl adjEdgeStep
          (nodes.foldl (adjNodeStep defaultAdjOptions) [])) k = true := by
        rw [jmHas_eq_isSome, hgb]
        rfl
      rw [adjEdgeFold_keys, adjNodeFold_keys] at hkeys
      rcases hkeys with h0 | ⟨n, hn, hid, hc1, hc2, hc3⟩
      · simp [jmHas] at h0
      · exact ⟨n, hn, by rw [hid, hp], (hconv n).mp ⟨hc1, hc2, hc3⟩⟩
  · intro e he hsrc
    rcases hsrc with ⟨n, hn, hid, hg, hs, hc⟩
    have hhas0 : jmHas (nodes.foldl (adjNodeStep defaultAdjOptions) [])
        e.source = true := by
      rw [adjNodeFold_keys]
      right
      rcases (hconv n).mpr ⟨hg, hs, hc⟩ with ⟨c1, c2, c3⟩
      exact ⟨n, hn, hid, c1, c2, c3⟩
    rcases adjEdgeFold_insert edges (nodes.foldl (adjNodeStep defaultAdjOptions) [])
      e he hhas0 with ⟨b2, hb2, hall, hsel⟩
    have hkmem : e.source ∈ sortStrings (jmKeys (edges.foldl adjEdgeStep
        (nodes.foldl (adjNodeStep defaultAdjOptions) []))) := by
      rw [mem_sortStrings, ← jmHas_iff_mem_keys, jmHas_eq_isSome, hb2]
      rfl
    refine ⟨(e.source, emitBuckets b2), ?_, rfl, ?_, ?_⟩
    · simp only [buildAdjacencyList]
      rw [mem_adjEmit_fold]
      exact Or.inr ⟨e.source, hkmem, b2, hb2, rfl⟩
    · exact mem_toSortedUnique.mpr hall
    · unfold bucketSel at hsel ⊢
      unfold emitBuckets
      by_cases hr : canonEdgeKind e.kind = "related"
      · rw [if_pos hr] at hsel ⊢
        exact mem_toSortedUnique.mpr hsel
      · by_cases hs2 : canonEdgeKind e.kind = "scripts"
        · rw [if_neg hr, if_pos hs2] at hsel ⊢
          exact mem_toSortedUnique.mpr hsel
        · rw [if_neg hr, if_neg hs2] at hsel ⊢
          exact mem_toSortedUnique.mpr hsel

/-- Witness for C10: a ghost target of a related edge from a real node
appears in the all and related lists even though the ghost node itself is
not a key. -/
theorem C10_witness :
    ∃ p ∈ buildAdjacencyList
      [nodeFromSkill ⟨"a", "a", "skill", false, "", "", "", "", "", [], [], [], []⟩,
       nodeFromGhost ⟨"unresolved:x", false, "ghost", "x", "x"⟩]
      [⟨"a=>unresolved:x::related", "a", "unresolved:x", "related", "x", "ghost", ""⟩]
      defaultAdjOptions, p.1 = "a" ∧ "unresolved:x" ∈ p.2.all ∧
        "unresolved:x" ∈ bucketSel p.2 (canonEdgeKind "related") :=
  (C10_adjacency_default_options
      [nodeFromSkill ⟨"a", "a", "skill", false, "", "", "", "", "", [], [], [], []⟩,
       nodeFromGhost ⟨"unresolved:x", false, "ghost", "x", "x"⟩]
      [⟨"a=>unresolved:x::related", "a", "unresolved:x", "related", "x", "ghost", ""⟩]).2
    ⟨"a=>unresolved:x::related", "a", "unresolved:x", "related", "x", "ghost", ""⟩
    (by decide)
    ⟨nodeFromSkill ⟨"a", "a", "skill", false, "", "", "", "", "", [], [], [], []⟩,
      by decide, by decide, by decide, by decide, by decide⟩

/-! ### Claim C7: the structure health rule -/

/-- C7: the structure rule (rule id dof) returns pass when every
header-bearing document contains a structure heading or when no
header-bearing documents exist, and returns warn listing the offending
file paths in its detail when at least one header-bearing document lacks
such a heading; it never returns fail. -/
theorem C7_dof_rule (mdFiles : List MdFile) :
    ((checkDof mdFiles).status = "pass" ∨ (checkDof mdFiles).status = "warn") ∧
    (checkDof mdFiles).status ≠ "fail" ∧
    ((checkDof mdFiles).status = "pass" ↔
      (mdFiles.filter (fun f => hasSkillFrontmatter f.content) = [] ∨
       ∀ f ∈ mdFiles.filter (fun f => hasSkillFrontmatter f.content),
         hasDofHeading f.content = true)) ∧
    ((checkDof mdFiles).status = "warn" →
      (checkDof mdFiles).detail = some
        ⟨((mdFiles.filter (fun f => hasSkillFrontmatter f.content)).filter
            (fun f => !(hasDofHeading f.content))).map (fun f => f.path),
         CTA_URL, "Add structure sections"⟩) := by
  unfold checkDof
  by_cases h0 : (mdFiles.filter (fun f => hasSkillFrontmatter f.content)).length = 0
  · rw [if_pos h0]
    refine ⟨Or.inl rfl, fun hc => (by decide : ("pass" : String) ≠ "fail") hc, ?_, ?_⟩
    · simp only [true_iff]
      exact Or.inl (List.length_eq_zero.mp h0)
    · intro h
      exact absurd h (by decide : ¬ ("pass" : String) = "warn")
  · rw [if_neg h0]
    by_cases h1 : (((mdFiles.filter (fun f => hasSkillFrontmatter f.content)).filter
        (fun f => !(hasDofHeading f.content))).map (fun f => f.path)).length = 0
    · rw [if_pos h1]
      refine ⟨Or.inl rfl, fun hc => (by decide : ("pass" : String) ≠ "fail") hc, ?_, ?_⟩
      · simp only [true_iff]
        right
        intro f hf
        rw [List.length_map] at h1
        have hnil := List.length_eq_zero.mp h1
        by_contra hnd
        have hmem : f ∈ (mdFiles.filter (fun f => hasSkillFrontmatter f.content)).filter
            (fun f => !(hasDofHeading f.content)) := by
          rw [List.mem_filter]
          exact ⟨hf, by simp [Bool.not_eq_true'] at hnd ⊢; exact hnd⟩
        rw [hnil] at hmem
        cases hmem
      · intro h
        exact absurd h (by decide : ¬ ("pass" : String) = "warn")
    · rw [if_neg h1]
      refine ⟨Or.inr rfl, fun hc => (by decide : ("warn" : String) ≠ "fail") hc, ?_,
        fun _ => rfl⟩
      constructor
      · intro h
        exact absurd h (by decide : ¬ ("warn" : String) = "pass")
      · rintro (h | h)
        · exact absurd (by rw [h]; rfl) h0
        · exfalso
          apply h1
          rw [List.length_map, List.length_eq_zero, List.filter_eq_nil_iff]
          intro f hf
          rw [h f hf]
          decide

/-- Witness for C7 at a collection with one header-bearing file lacking a
structure heading and one helper file. -/
theorem C7_witness :
    (checkDof [⟨"a.md", "---\nname: a\n---\nnothing"⟩, ⟨"b.md", "no header"⟩]).status =
      "warn" ∧
    (checkDof [⟨"a.md", "---\nname: a\n---\nnothing"⟩, ⟨"b.md", "no header"⟩]).detail =
      some ⟨["a.md"], CTA_URL, "Add structure sections"⟩ := by
  have h := C7_dof_rule [⟨"a.md", "---\nname: a\n---\nnothing"⟩, ⟨"b.md", "no header"⟩]
  refine ⟨by decide, ?_⟩
  have hd := h.2.2.2 (by decide)
  rw [hd]
  decide

/-! ### Claim C8: case sensitivity of document discovery -/

theorem jsEndsWith_append (pre s suf : String) (h : jsEndsWith s suf = true) :
    jsEndsWith ⟨pre.data ++ s.data⟩ suf = true := by
  unfold jsEndsWith at h ⊢
  rw [beq_iff_eq] at h ⊢
  have hlen : suf.data.length ≤ s.data.reverse.length := by
    have hc := congrArg List.length h
    simp only [List.length_take, List.length_reverse] at hc
    rw [List.length_reverse]
    omega
  show (pre.data ++ s.data).reverse.take suf.data.length = suf.data.reverse
  rw [List.reverse_append, List.take_append_of_le_length hlen]
  exact h

theorem jsEndsWith_joinPath (dir name suf : String) (h : jsEndsWith name suf = true) :
    jsEndsWith (joinPath dir name) suf = true := by
  unfold joinPath
  by_cases hd : dir = ""
  · rw [if_pos hd]
    exact h
  · rw [if_neg hd]
    have heq : dir ++ "/" ++ name = (⟨(dir ++ "/").data ++ name.data⟩ : String) := rfl
    rw [heq]
    exact jsEndsWith_append (dir ++ "/") name suf h

theorem walkMd_paths_end_md :
    ∀ (dirPath : String) (entries : List (String × FsEntry)),
    ∀ p ∈ walkMd dirPath entries, jsEndsWith p.1 ".md" = true := by
  intro dirPath entries
  induction dirPath, entries using walkMd.induct with
  | case1 d =>
    intro p hp
    simp [walkMd] at hp
  | case2 d name e rest ih1 ih2 =>
    intro p hp
    rw [walkMd.eq_def] at hp
    simp only [] at hp
    rcases List.mem_append.mp hp with h1 | h2
    · cases e with
      | file c =>
        dsimp only at h1
        by_cases hh : jsStartsWith name "."
        · rw [if_pos hh] at h1
          cases h1
        · rw [if_neg hh] at h1
          by_cases hm : jsEndsWith name ".md"
          · rw [if_pos hm] at h1
            rcases List.mem_singleton.mp h1 with rfl
            exact jsEndsWith_joinPath d name ".md" hm
          · rw [if_neg hm] at h1
            cases h1
      | dir sub =>
        dsimp only at h1
        by_cases hh : jsStartsWith name "."
        · rw [if_pos hh] at h1
          cases h1
        · rw [if_neg hh] at h1
          by_cases hm : jsEndsWith name ".md"
          · rw [if_pos hm] at h1
            cases h1
          · rw [if_neg hm] at h1
            by_cases hl : sub.length > 0
            · rw [if_pos hl] at h1
              exact ih1 p h1
            · rw [if_neg hl] at h1
              cases h1
    · exact ih2 p h2

/-- C8 counterexample: a file named with an upper-case MD extension is
not read by the markdown collection walk (the claim states it is), and
the document count does not include it, while the lowercase spelling is
read and counted. -/
theorem C8_counterexample :
    collectMarkdownFiles [("A.MD", .file "hello")] = [] ∧
    skillFileCount [("A.MD", .file "hello")] = 0 ∧
    collectMarkdownFiles [("a.md", .file "hello")] = [("a.md", "hello")] ∧
    skillFileCount [("a.md", .file "hello")] = 1 := by
  refine ⟨?_, ?_, ?_, ?_⟩ <;>
    simp +decide [collectMarkdownFiles, skillFileCount, walkMd, countMdWalk,
      jsStartsWith, jsEndsWith, joinPath]

/-- C8 amended: document discovery treats the extension case-sensitively:
every path collected by the markdown walk ends in the lowercase extension
dot-md; an entry ending in the extension only in another letter case (for
example dot-MD) is not read and not counted, while the lowercase spelling
is; entries beginning with a dot are skipped. -/
theorem C8_amended_case_sensitive :
    (∀ (dirPath : String) (entries : List (String × FsEntry)),
      ∀ p ∈ walkMd dirPath entries, jsEndsWith p.1 ".md" = true) ∧
    collectMarkdownFiles
      [("A.MD", .file "hello"), ("b.md", .file "x"), (".c.md", .file "y")] =
      [("b.md", "x")] ∧
    skillFileCount
      [("A.MD", .file "hello"), ("b.md", .file "x"), (".c.md", .file "y")] = 1 := by
  refine ⟨walkMd_paths_end_md, ?_, ?_⟩ <;>
    simp +decide [collectMarkdownFiles, skillFileCount, walkMd, countMdWalk,
      jsStartsWith, jsEndsWith, joinPath]

/-- Witness for the amended C8, applying the universal part at a concrete
collected file. -/
theorem C8_amended_witness : jsEndsWith "b.md" ".md" = true :=
  C8_amended_case_sensitive.1 "" [("b.md", FsEntry.file "x")] ("b.md", "x")
    (by simp +decide [walkMd, jsStartsWith, jsEndsWith, joinPath])

/-! ### Claim C1: cycle condensation and self-loops -/

theorem strongConnect_succ (adj : JsMap (List String)) (fuel : Nat) (u : String)
    (st : TarjanState) :
    strongConnect adj (fuel + 1) u st =
      (let st2 := ((jmGet adj u).getD []).foldl (tarjanStep adj fuel u)
        (tarjanEnter u st)
       if getLow st2 u = getIdx st2 u then popComponent u st2 else st2) := rfl

theorem filter_length_mono {α : Type} (l : List α) (p q : α → Bool)
    (h : ∀ a ∈ l, p a = true → q a = true) :
    (l.filter p).length ≤ (l.filter q).length := by
  induction l with
  | nil => simp
  | cons a l ih =>
    have ih' := ih (fun b hb => h b (List.mem_cons_of_mem _ hb))
    by_cases hp : p a = true
    · have hq := h a (List.mem_cons_self a l) hp
      simp [List.filter_cons, hp, hq]
      omega
    · have hp' : p a = false := by
        cases hpa : p a
        · rfl
        · exact absurd hpa hp
      by_cases hq : q a = true
      · simp [List.filter_cons, hp', hq]
        omega
      · have hq' : q a = false := by
          cases hqa : q a
          · rfl
          · exact absurd hqa hq
        simp [List.filter_cons, hp', hq']
        exact ih'

theorem filter_length_lt {α : Type} (l : List α) (p q : α → Bool) (u : α)
    (hu : u ∈ l) (hp : p u = false) (hq : q u = true)
    (h : ∀ a ∈ l, p a = true → q a = true) :
    (l.filter p).length < (l.filter q).length := by
  induction l with
  | nil => cases hu
  | cons a l ih =>
    have hmono := filter_length_mono l p q (fun b hb => h b (List.mem_cons_of_mem _ hb))
    rcases List.mem_cons.mp hu with rfl | hul
    · simp [List.filter_cons, hp, hq]
      omega
    · have ih' := ih hul (fun b hb => h b (List.mem_cons_of_mem _ hb))
      by_cases hpa : p a = true
      · have hqa := h a (List.mem_cons_self a l) hpa
        simp [List.filter_cons, hpa, hqa]
        omega
      · have hpa' : p a = false := by
          cases hx : p a
          · rfl
          · exact absurd hx hpa
        by_cases hqa : q a = true
        · simp [List.filter_cons, hpa', hqa]
          omega
        · have hqa' : q a = false := by
            cases hx : q a
            · rfl
            · exact absurd hx hqa
          simp [List.filter_cons, hpa', hqa']
          exact ih'

theorem mem_jmValues_of_get {α : Type} {m : JsMap α} {k : String} {v : α}
    (h : jmGet m k = some v) : v ∈ jmValues m := by
  induction m with
  | nil => simp [jmGet] at h
  | cons p rest ih =>
    rw [jmGet_cons] at h
    by_cases hb : p.1 = k
    · rw [if_pos hb] at h
      cases h
      exact List.mem_cons_self _ _
    · rw [if_neg hb] at h
      exact List.mem_cons_of_mem _ (ih h)

theorem mem_tarjanUniv_of_key {adj : JsMap (List String)} {k : String}
    (h : k ∈ jmKeys adj) : k ∈ tarjanUniv adj :=
  List.mem_append_left _ h

theorem mem_tarjanUniv_of_neighbor {adj : JsMap (List String)} {u n : String}
    (h : n ∈ (jmGet adj u).getD []) : n ∈ tarjanUniv adj := by
  rcases ho : jmGet adj u with _ | l
  · rw [ho] at h
    simp at h
  · rw [ho] at h
    refine List.mem_append_right _ ?_
    rw [List.mem_flatten]
    exact ⟨l, mem_jmValues_of_get ho, h⟩

theorem foldl_erase_spec : ∀ (l os : List String), os.Nodup →
    (l.foldl (fun os2 m => os2.erase m) os).Nodup ∧
    (∀ x, x ∈ l.foldl (fun os2 m => os2.erase m) os ↔ x ∈ os ∧ x ∉ l)
  | [], os, h => ⟨h, by simp⟩
  | m :: l, os, h => by
    rw [List.foldl_cons]
    have hrec := foldl_erase_spec l (os.erase m) (h.erase m)
    refine ⟨hrec.1, fun x => ?_⟩
    rw [hrec.2 x, List.Nodup.mem_erase_iff h]
    simp only [List.mem_cons]
    tauto

theorem popLoop_spec (u : String) : ∀ (ext stack onStack comp : List String),
    u ∉ ext →
    popLoop u (ext ++ u :: stack) onStack comp =
      (stack, (ext ++ [u]).foldl (fun os2 m => os2.erase m) onStack,
       comp ++ (ext ++ [u]))
  | [], stack, onStack, comp, _ => by
    rw [List.nil_append]
    rw [popLoop]
    simp
  | e :: ext, stack, onStack, comp, hu => by
    rw [List.cons_append]
    rw [popLoop]
    have hne : ¬ e = u := fun hc => hu (hc ▸ List.mem_cons_self e ext)
    rw [if_neg hne]
    rw [popLoop_spec u ext stack (onStack.erase e) (comp ++ [e])
      (fun hc => hu (List.mem_cons_of_mem _ hc))]
    simp [List.append_assoc]

theorem tarjanWF_setLow (st : TarjanState) (x : String) (v : Nat) :
    tarjanWF (setLow st x v) ↔ tarjanWF st := Iff.rfl

theorem covered_setLow (st : TarjanState) (x y : String) (v : Nat) :
    covered (setLow st x v) y ↔ covered st y := Iff.rfl

theorem covered_enter (u : String) (st : TarjanState) (x : String)
    (h : covered st x) : covered (tarjanEnter u st) x := by
  rcases h with h | h
  · exact Or.inl (List.mem_cons_of_mem _ h)
  · exact Or.inr h

theorem cnt_mono_of_vp (univ : List String) (stA stB : TarjanState)
    (h : ∀ x i, jmGet stA.indexByNode x = some i → jmGet stB.indexByNode x = some i) :
    unindexedCount univ stB ≤ unindexedCount univ stA := by
  unfold unindexedCount
  apply filter_length_mono
  intro a _ hp
  rw [Option.isNone_iff_eq_none] at hp ⊢
  rcases ho : jmGet stA.indexByNode a with _ | i
  · rfl
  · rw [h a i ho] at hp
    cases hp

theorem jmGet_jmSet_none {α : Type} {m : JsMap α} {k x : String} {v : α}
    (h : jmGet (jmSet m k v) x = none) : jmGet m x = none ∧ ¬ x = k := by
  rw [jmGet_jmSet] at h
  by_cases hx : x = k
  · rw [if_pos hx] at h
    cases h
  · rw [if_neg hx] at h
    exact ⟨h, hx⟩

theorem cnt_lt_enter (univ : List String) (st : TarjanState) (u : String)
    (hu : u ∈ univ) (hnone : jmGet st.indexByNode u = none) :
    unindexedCount univ (tarjanEnter u st) < unindexedCount univ st := by
  unfold unindexedCount
  apply filter_length_lt _ _ _ u hu
  · show (jmGet (tarjanEnter u st).indexByNode u).isNone = false
    show (jmGet (jmSet st.indexByNode u st.index) u).isNone = false
    rw [jmGet_jmSet_self]
    rfl
  · rw [Option.isNone_iff_eq_none]
    exact hnone
  · intro a _ hp
    rw [Option.isNone_iff_eq_none] at hp ⊢
    exact (jmGet_jmSet_none hp).1

theorem tarjanStep_inv (adj : JsMap (List String)) (fuel : Nat)
    (ihf : ∀ (u2 : String) (stE : TarjanState) (B2 : Nat),
      unindexedCount (tarjanUniv adj) stE < fuel →
      u2 ∈ tarjanUniv adj →
      jmGet stE.indexByNode u2 = none →
      tarjanWF stE →
      B2 ≤ stE.index →
      (∀ x ∈ stE.stack, ∀ i, jmGet stE.indexByNode x = some i → B2 ≤ i) →
      (∀ x, (jmGet stE.indexByNode x).isSome = true → covered stE x) →
      scSpec B2 u2 stE (strongConnect adj fuel u2 stE))
    (st st1 : TarjanState) (u : String) (I B : Nat)
    (hst1fuel : unindexedCount (tarjanUniv adj) st1 < fuel)
    (hnoneu : jmGet st.indexByNode u = none)
    (hBst1 : B ≤ st1.index)
    (hVP01 : ∀ x i, jmGet st.indexByNode x = some i → jmGet st1.indexByNode x = some i)
    (n : String) (hn : n ∈ tarjanUniv adj)
    (acc : TarjanState)
    (hacc : tarjanFoldInv (tarjanUniv adj) st st1 u I B acc) :
    tarjanFoldInv (tarjanUniv adj) st st1 u I B (tarjanStep adj fuel u acc n) := by
  unfold tarjanStep
  by_cases hn0 : (jmGet acc.indexByNode n).isNone = true
  · rw [if_pos hn0]
    obtain ⟨q1, q2, q3, q4, q5, q6, q7, q8, q9, q10, q11, q12, q13⟩ := hacc
    have hnnone : jmGet acc.indexByNode n = none := Option.isNone_iff_eq_none.mp hn0
    have hcall := ihf n acc B (Nat.lt_of_le_of_lt q4 hst1fuel) hn hnnone q1
      (le_trans hBst1 q2) q3 q13
    obtain ⟨cVP, cLP, cWF, cIdxLe, ⟨cext, hcext, hcextprop⟩, cCov, ⟨ccs, hccs⟩,
      cNEW, ⟨ln, hln, hlnB⟩, cIdxN, cIdxCov, -⟩ := hcall
    obtain ⟨lu, hlu, hluB, hluI⟩ := q10
    obtain ⟨ext, hext, hextprop⟩ := q7
    obtain ⟨cs, hcs⟩ := q9
    set child := strongConnect adj fuel n acc with hchild
    have hlowu : jmGet child.lowLinkByNode u = some lu := by
      rw [cLP u (by rw [q12]; rfl), hlu]
    have hgetlowu : getLow child u = lu := by
      unfold getLow
      rw [hlowu]
      rfl
    have hgetlown : getLow child n = ln := by
      unfold getLow
      rw [hln]
      rfl
    refine ⟨?_, ?_, ?_, ?_, ?_, ?_, ?_, ?_, ?_, ?_, ?_, ?_, ?_⟩
    · exact (tarjanWF_setLow child u _).mpr cWF
    · exact le_trans q2 cIdxLe
    · -- stack index lower bound
      intro x hx i hi
      have hi2 : jmGet child.indexByNode x = some i := hi
      have hx2 : x ∈ cext ++ acc.stack := by
        rw [← hcext]
        exact hx
      rcases List.mem_append.mp hx2 with hxe | hxa
      · rcases cNEW x i hi2 with hs | hB
        · rw [hcextprop x hxe] at hs
          cases hs
        · exact hB
      · have hsx := q1.1 x hxa
        rcases ho : jmGet acc.indexByNode x with _ | j
        · rw [ho] at hsx
          cases hsx
        · have := cVP x j ho
          rw [hi2] at this
          cases this
          exact q3 x hxa i ho
    · exact le_trans (cnt_mono_of_vp _ acc child cVP) q4
    · intro x i h
      exact cVP x i (q5 x i h)
    · intro x hx
      have hxu : ¬ x = u := by
        intro hc
        rw [hc, hnoneu] at hx
        cases hx
      show jmGet (jmSet child.lowLinkByNode u _) x = _
      rw [jmGet_jmSet, if_neg hxu]
      have hxacc : (jmGet acc.indexByNode x).isSome = true := by
        rcases ho : jmGet st.indexByNode x with _ | j
        · rw [ho] at hx
          cases hx
        · rw [q5 x j (hVP01 x j ho)]
          rfl
      rw [cLP x hxacc]
      exact q6 x hx
    · refine ⟨cext ++ ext, ?_, ?_⟩
      · show child.stack = _
        rw [hcext, hext, List.append_assoc]
      · intro x hx
        rcases List.mem_append.mp hx with hxc | hxe
        · rcases ho : jmGet st1.indexByNode x with _ | j
          · rfl
          · have := q5 x j ho
            rw [hcextprop x hxc] at this
            cases this
        · exact hextprop x hxe
    · intro x hx
      exact cCov x (q8 x hx)
    · refine ⟨cs ++ ccs, ?_⟩
      show child.components = _
      rw [hccs, hcs, List.append_assoc]
    · refine ⟨min lu ln, ?_, le_min hluB hlnB, le_trans (min_le_left _ _) hluI⟩
      show jmGet (jmSet child.lowLinkByNode u _) u = _
      rw [jmGet_jmSet_self, hgetlowu, hgetlown]
    · intro x i hi
      have hi2 : jmGet child.indexByNode x = some i := hi
      rcases cNEW x i hi2 with hs | hB
      · rcases ho : jmGet acc.indexByNode x with _ | j
        · rw [ho] at hs
          cases hs
        · have := cVP x j ho
          rw [hi2] at this
          cases this
          exact q11 x i ho
      · exact Or.inr hB
    · exact cVP u I q12
    · intro x hx
      exact cIdxCov x hx
  · rw [if_neg hn0]
    by_cases hos : n ∈ acc.onStack
    · rw [if_pos hos]
      obtain ⟨q1, q2, q3, q4, q5, q6, q7, q8, q9, q10, q11, q12, q13⟩ := hacc
      obtain ⟨lu, hlu, hluB, hluI⟩ := q10
      have hgetlowu : getLow acc u = lu := by
        unfold getLow
        rw [hlu]
        rfl
      have hnstack : n ∈ acc.stack := (q1.2.2.2 n).mp hos
      have hsn := q1.1 n hnstack
      rcases ho : jmGet acc.indexByNode n with _ | j
      · rw [ho] at hsn
        cases hsn
      · have hgetidxn : getIdx acc n = j := by
          unfold getIdx
          rw [ho]
          rfl
        have hjB : B ≤ j := q3 n hnstack j ho
        refine ⟨(tarjanWF_setLow acc u _).mpr q1, q2, q3, q4, q5, ?_, q7, q8, q9,
          ?_, q11, q12, q13⟩
        · intro x hx
          have hxu : ¬ x = u := by
            intro hc
            rw [hc, hnoneu] at hx
            cases hx
          show jmGet (jmSet acc.lowLinkByNode u _) x = _
          rw [jmGet_jmSet, if_neg hxu]
          exact q6 x hx
        · refine ⟨min lu j, ?_, le_min hluB hjB, le_trans (min_le_left _ _) hluI⟩
          show jmGet (jmSet acc.lowLinkByNode u _) u = _
          rw [jmGet_jmSet_self, hgetlowu, hgetidxn]
    · rw [if_neg hos]
      exact hacc

theorem strongConnect_spec (adj : JsMap (List String)) :
    ∀ (fuel : Nat) (u : String) (st : TarjanState) (B : Nat),
      unindexedCount (tarjanUniv adj) st < fuel →
      u ∈ tarjanUniv adj →
      jmGet st.indexByNode u = none →
      tarjanWF st →
      B ≤ st.index →
      (∀ x ∈ st.stack, ∀ i, jmGet st.indexByNode x = some i → B ≤ i) →
      (∀ x, (jmGet st.indexByNode x).isSome = true → covered st x) →
      scSpec B u st (strongConnect adj fuel u st) := by
  intro fuel
  induction fuel with
  | zero =>
    intro u st B hcnt
    exact absurd hcnt (Nat.not_lt_zero _)
  | succ fuel ihf =>
    intro u st B hcnt humem hnone hwf hB1 hB2 hcov
    obtain ⟨hSI, hND, hOSND, hOS⟩ := hwf
    have hustack : u ∉ st.stack := by
      intro hc
      have hs := hSI u hc
      rw [hnone] at hs
      cases hs
    have huos : u ∉ st.onStack := fun hc => hustack ((hOS u).mp hc)
    set st1 := tarjanEnter u st with hst1def
    have hst1idx : st1.indexByNode = jmSet st.indexByNode u st.index := rfl
    have hst1low : st1.lowLinkByNode = jmSet st.lowLinkByNode u st.index := rfl
    have hst1os : st1.onStack = st.onStack ++ [u] := by
      show (if u ∈ st.onStack then st.onStack else st.onStack ++ [u]) = _
      rw [if_neg huos]
    have hst1stack : st1.stack = u :: st.stack := rfl
    have hst1comp : st1.components = st.components := rfl
    have hst1index : st1.index = st.index + 1 := rfl
    have hVP01 : ∀ x i, jmGet st.indexByNode x = some i →
        jmGet st1.indexByNode x = some i := by
      intro x i h
      rw [hst1idx, jmGet_jmSet]
      by_cases hxu : x = u
      · rw [hxu, hnone] at h
        cases h
      · rw [if_neg hxu]
        exact h
    have hcnt1 : unindexedCount (tarjanUniv adj) st1 < fuel := by
      have hlt := cnt_lt_enter (tarjanUniv adj) st u humem hnone
      rw [← hst1def] at hlt
      omega
    have hinv1 : tarjanFoldInv (tarjanUniv adj) st st1 u st.index B st1 := by
      refine ⟨⟨?_, ?_, ?_, ?_⟩, le_refl _, ?_, le_refl _, fun x i h => h, ?_,
        ⟨[], by rw [List.nil_append], fun x hx => absurd hx (List.not_mem_nil x)⟩,
        fun x h => h, ⟨[], (List.append_nil _).symm⟩,
        ⟨st.index, by rw [hst1low, jmGet_jmSet_self], hB1, le_refl _⟩, ?_,
        by rw [hst1idx, jmGet_jmSet_self], ?_⟩
      · intro x hx
        rw [hst1stack] at hx
        rw [hst1idx, jmGet_jmSet]
        by_cases hxu : x = u
        · rw [if_pos hxu]
          rfl
        · rw [if_neg hxu]
          rcases List.mem_cons.mp hx with h | h
          · exact absurd h hxu
          · exact hSI x h
      · rw [hst1stack]
        exact List.nodup_cons.mpr ⟨hustack, hND⟩
      · rw [hst1os]
        refine List.Nodup.append hOSND (List.nodup_singleton u) ?_
        intro x hx hxu
        rw [List.mem_singleton] at hxu
        subst hxu
        exact huos hx
      · intro x
        rw [hst1os, hst1stack, List.mem_append, List.mem_singleton,
          List.mem_cons, hOS x]
        exact or_comm
      · intro x hx i hi
        rw [hst1stack] at hx
        rw [hst1idx, jmGet_jmSet] at hi
        by_cases hxu : x = u
        · rw [if_pos hxu] at hi
          cases hi
          exact hB1
        · rw [if_neg hxu] at hi
          rcases List.mem_cons.mp hx with h | h
          · exact absurd h hxu
          · exact hB2 x h i hi
      · intro x hx
        have hxu : ¬ x = u := by
          intro hc
          rw [hc, hnone] at hx
          cases hx
        rw [hst1low, jmGet_jmSet, if_neg hxu]
      · intro x i hi
        rw [hst1idx, jmGet_jmSet] at hi
        by_cases hxu : x = u
        · rw [if_pos hxu] at hi
          cases hi
          exact Or.inr hB1
        · rw [if_neg hxu] at hi
          exact Or.inl (by rw [hi]; rfl)
      · intro x hx
        rw [hst1idx] at hx
        rw [jmGet_jmSet] at hx
        by_cases hxu : x = u
        · subst hxu
          exact Or.inl (by rw [hst1stack]; exact List.mem_cons_self _ _)
        · rw [if_neg hxu] at hx
          exact covered_enter u st x (hcov x hx)
    have hfold : ∀ (ns : List String), (∀ n ∈ ns, n ∈ tarjanUniv adj) →
        ∀ acc, tarjanFoldInv (tarjanUniv adj) st st1 u st.index B acc →
        tarjanFoldInv (tarjanUniv adj) st st1 u st.index B
          (ns.foldl (tarjanStep adj fuel u) acc) := by
      intro ns
      induction ns with
      | nil =>
        intro _ acc h
        exact h
      | cons n ns ihn =>
        intro hmem acc hacc
        rw [List.foldl_cons]
        exact ihn (fun m hm => hmem m (List.mem_cons_of_mem _ hm)) _
          (tarjanStep_inv adj fuel ihf st st1 u st.index B hcnt1 hnone
            (by rw [hst1index]; omega) hVP01 n
            (hmem n (List.mem_cons_self _ _)) acc hacc)
    set st2 := ((jmGet adj u).getD []).foldl (tarjanStep adj fuel u) st1 with hst2def
    have hgoal : strongConnect adj (fuel + 1) u st =
        (if getLow st2 u = getIdx st2 u then popComponent u st2 else st2) := rfl
    rw [hgoal]
    have hinv2 : tarjanFoldInv (tarjanUniv adj) st st1 u st.index B st2 :=
      hfold _ (fun n hn => mem_tarjanUniv_of_neighbor hn) st1 hinv1
    obtain ⟨w1, w2, w3, w4, w5, w6, w7, w8, w9, w10, w11, w12, w13⟩ := hinv2
    obtain ⟨lu, hlu2, hluB2, hluI2⟩ := w10
    obtain ⟨ext2, hext2, hext2prop⟩ := w7
    obtain ⟨cs2, hcs2⟩ := w9
    have hgetIdx2 : getIdx st2 u = st.index := by
      unfold getIdx
      rw [w12]
      rfl
    have hgetLow2 : getLow st2 u = lu := by
      unfold getLow
      rw [hlu2]
      rfl
    have hstk2 : st2.stack = ext2 ++ u :: st.stack := by
      rw [hext2, hst1stack]
    have hVP02 : ∀ x i, jmGet st.indexByNode x = some i →
        jmGet st2.indexByNode x = some i := by
      intro x i h
      exact w5 x i (hVP01 x i h)
    have hM2 : ∀ x, (jmGet st.indexByNode x).isSome = true →
        jmGet st2.lowLinkByNode x = jmGet st.lowLinkByNode x := w6
    have hM4 : st.index ≤ st2.index := by
      rw [hst1index] at w2
      omega
    have hM8' : st2.components = st.components ++ cs2 := by
      rw [hcs2, hst1comp]
    by_cases hpop : getLow st2 u = getIdx st2 u
    · rw [if_pos hpop]
      have hluI : lu = st.index := by
        rw [hgetLow2, hgetIdx2] at hpop
        exact hpop
      have hnd2 : st2.stack.Nodup := w1.2.1
      rw [hstk2] at hnd2
      have hdisj := List.disjoint_of_nodup_append hnd2
      have hune : u ∉ ext2 := fun hc => hdisj hc (List.mem_cons_self _ _)
      have hndtail : (u :: st.stack).Nodup := hnd2.of_append_right
      have hploop := popLoop_spec u ext2 st.stack st2.onStack [] hune
      have hpc : popComponent u st2 =
          { st2 with
              stack := st.stack
              onStack := (ext2 ++ [u]).foldl (fun os2 m => os2.erase m) st2.onStack
              components := st2.components ++ [ext2 ++ [u]] } := by
        unfold popComponent
        rw [hstk2, hploop]
        rfl
      rw [hpc]
      have hcomp : u ∈ ext2 ++ [u] := List.mem_append_right _ (List.mem_singleton_self u)
      have herase := foldl_erase_spec (ext2 ++ [u]) st2.onStack w1.2.2.1
      refine ⟨?_, ?_, ⟨?_, ?_, ?_, ?_⟩, hM4, ⟨[], by rw [List.nil_append], ?_⟩,
        ?_, ⟨cs2 ++ [ext2 ++ [u]], ?_⟩, w11, ⟨lu, hlu2, hluB2⟩,
        by rw [w12]; rfl, ?_, ?_⟩
      · exact hVP02
      · exact hM2
      · intro x hx
        exact w1.1 x (by rw [hstk2]; exact List.mem_append_right _ (List.mem_cons_of_mem _ hx))
      · exact hndtail.of_cons
      · exact herase.1
      · intro x
        show x ∈ (ext2 ++ [u]).foldl (fun os2 m => os2.erase m) st2.onStack ↔ x ∈ st.stack
        rw [herase.2 x, w1.2.2.2 x, hstk2]
        constructor
        · rintro ⟨hmem, hnp⟩
          rcases List.mem_append.mp hmem with hx2 | hxs
          · exact absurd (List.mem_append_left [u] hx2) hnp
          · rcases List.mem_cons.mp hxs with rfl | hxs2
            · exact absurd (List.mem_append_right ext2 (List.mem_singleton_self x)) hnp
            · exact hxs2
        · intro hxs
          refine ⟨List.mem_append_right _ (List.mem_cons_of_mem _ hxs), ?_⟩
          intro hc
          rcases List.mem_append.mp hc with hx2 | hxu
          · exact hdisj hx2 (List.mem_cons_of_mem _ hxs)
          · rw [List.mem_singleton] at hxu
            subst hxu
            exact (List.nodup_cons.mp hndtail).1 hxs
      · intro x hx
        exact absurd hx (List.not_mem_nil x)
      · intro x hx
        rcases hx with hx | ⟨c, hc, hxc⟩
        · exact Or.inl hx
        · refine Or.inr ⟨c, ?_, hxc⟩
          show c ∈ st2.components ++ [ext2 ++ [u]]
          rw [hM8']
          exact List.mem_append_left _ (List.mem_append_left _ hc)
      · show st2.components ++ [ext2 ++ [u]] = st.components ++ (cs2 ++ [ext2 ++ [u]])
        rw [hM8', List.append_assoc]
      · intro x hx
        have hx2 : (jmGet st2.indexByNode x).isSome = true := hx
        rcases w13 x hx2 with hxs | ⟨c, hc, hxc⟩
        · rw [hstk2] at hxs
          rcases List.mem_append.mp hxs with hxe | hxc2
          · exact Or.inr ⟨ext2 ++ [u],
              List.mem_append_right _ (List.mem_singleton_self _),
              List.mem_append_left _ hxe⟩
          · rcases List.mem_cons.mp hxc2 with hxu | hxs2
            · subst hxu
              exact Or.inr ⟨ext2 ++ [x],
                List.mem_append_right _ (List.mem_singleton_self _), hcomp⟩
            · exact Or.inl hxs2
        · exact Or.inr ⟨c, List.mem_append_left _ hc, hxc⟩
      · intro hstk hBI
        exact ⟨⟨ext2 ++ [u],
          List.mem_append_right _ (List.mem_singleton_self _), hcomp⟩, hstk⟩
    · rw [if_neg hpop]
      refine ⟨hVP02, hM2, w1, hM4, ⟨ext2 ++ [u], by rw [hstk2, List.append_assoc]; rfl, ?_⟩,
        ?_, ⟨cs2, hM8'⟩, w11, ⟨lu, hlu2, hluB2⟩, by rw [w12]; rfl, w13, ?_⟩
      · intro x hx
        rcases List.mem_append.mp hx with hxe | hxu
        · have h1 := hext2prop x hxe
          rw [hst1idx] at h1
          exact (jmGet_jmSet_none h1).1
        · rw [List.mem_singleton] at hxu
          subst hxu
          exact hnone
      · intro x hx
        exact w8 x (covered_enter u st x hx)
      · intro hstk hBI
        exfalso
        apply hpop
        rw [hgetLow2, hgetIdx2]
        omega


theorem tarjanLoop_covers (adj : JsMap (List String)) :
    ∀ (ks : List String), (∀ k ∈ ks, k ∈ jmKeys adj) →
    ∀ (st : TarjanState), tarjanWF st → st.stack = [] →
    (∀ x, (jmGet st.indexByNode x).isSome = true → ∃ c ∈ st.components, x ∈ c) →
    (let fin := ks.foldl (fun st3 node =>
        if (jmGet st3.indexByNode node).isNone then
          strongConnect adj ((tarjanUniv adj).length + 1) node st3 else st3) st
     tarjanWF fin ∧ fin.stack = [] ∧
     (∃ cs, fin.components = st.components ++ cs) ∧
     (∀ x, (jmGet fin.indexByNode x).isSome = true → ∃ c ∈ fin.components, x ∈ c) ∧
     (∀ k ∈ ks, ∃ c ∈ fin.components, k ∈ c))
  | [], _, st, hwf, hstk, hcomps =>
    ⟨hwf, hstk, ⟨[], (List.append_nil _).symm⟩, hcomps,
      fun k hk => absurd hk (List.not_mem_nil k)⟩
  | k :: ks, hmem, st, hwf, hstk, hcomps => by
    rw [List.foldl_cons]
    by_cases hidx : (jmGet st.indexByNode k).isNone = true
    · rw [if_pos hidx]
      have hknone : jmGet st.indexByNode k = none := Option.isNone_iff_eq_none.mp hidx
      have hcnt : unindexedCount (tarjanUniv adj) st < (tarjanUniv adj).length + 1 := by
        have := List.length_filter_le
          (fun k2 => (jmGet st.indexByNode k2).isNone) (tarjanUniv adj)
        unfold unindexedCount
        omega
      have hcall := strongConnect_spec adj ((tarjanUniv adj).length + 1) k st st.index
        hcnt (mem_tarjanUniv_of_key (hmem k (List.mem_cons_self _ _))) hknone hwf
        (le_refl _)
        (fun x hx => by rw [hstk] at hx; exact absurd hx (List.not_mem_nil x))
        (fun x hx => Or.inr (hcomps x hx))
      obtain ⟨cVP, cLP, cWF, cIdxLe, cExt, cCov, ⟨ccs, hccs⟩, cNEW, cLOWU, cIdxK,
        cIdxCov, cRoot⟩ := hcall
      obtain ⟨⟨c0, hc0, hkc0⟩, hstk'⟩ := cRoot hstk rfl
      set st' := strongConnect adj ((tarjanUniv adj).length + 1) k st with hst'
      have hcomps' : ∀ x, (jmGet st'.indexByNode x).isSome = true →
          ∃ c ∈ st'.components, x ∈ c := by
        intro x hx
        rcases cIdxCov x hx with hxs | hin
        · rw [hstk'] at hxs
          exact absurd hxs (List.not_mem_nil x)
        · exact hin
      have hrec := tarjanLoop_covers adj ks
        (fun m hm => hmem m (List.mem_cons_of_mem _ hm)) st' cWF hstk' hcomps'
      obtain ⟨fWF, fStk, ⟨fcs, hfcs⟩, fCov, fAll⟩ := hrec
      refine ⟨fWF, fStk, ⟨ccs ++ fcs, by rw [hfcs, hccs, List.append_assoc]⟩, fCov, ?_⟩
      intro m hm
      rcases List.mem_cons.mp hm with hmk | hmks
      · subst hmk
        exact ⟨c0, by rw [hfcs]; exact List.mem_append_left _ hc0, hkc0⟩
      · exact fAll m hmks
    · rw [if_neg hidx]
      have hrec := tarjanLoop_covers adj ks
        (fun m hm => hmem m (List.mem_cons_of_mem _ hm)) st hwf hstk hcomps
      obtain ⟨fWF, fStk, ⟨fcs, hfcs⟩, fCov, fAll⟩ := hrec
      refine ⟨fWF, fStk, ⟨fcs, hfcs⟩, fCov, ?_⟩
      intro m hm
      rcases List.mem_cons.mp hm with hmk | hmks
      · subst hmk
        have hks : (jmGet st.indexByNode m).isSome = true := by
          rcases ho : jmGet st.indexByNode m with _ | j
          · rw [ho] at hidx
            exact absurd rfl hidx
          · rfl
        obtain ⟨c0, hc0, hmc0⟩ := hcomps m hks
        exact ⟨c0, by rw [hfcs]; exact List.mem_append_left _ hc0, hmc0⟩
      · exact fAll m hmks

theorem tarjanScc_covers (adj : JsMap (List String)) (v : String)
    (hv : v ∈ jmKeys adj) : ∃ c ∈ tarjanScc adj, v ∈ c := by
  have hrun := tarjanLoop_covers adj (jmKeys adj) (fun k hk => hk) tarjanInit
    ⟨fun x hx => absurd hx (List.not_mem_nil x), List.nodup_nil, List.nodup_nil,
     fun x => Iff.rfl⟩ rfl
    (fun x hx => by
      rcases hx2 : jmGet (tarjanInit).indexByNode x with _ | j
      · rw [hx2] at hx
        cases hx
      · cases hx2)
  obtain ⟨-, -, -, -, fAll⟩ := hrun
  exact fAll v hv

theorem selfLoops_grow : ∀ (edges : List Edge) (acc : List String) (x : String),
    x ∈ acc →
    x ∈ edges.foldl (fun acc2 e2 =>
      if e2.source = e2.target then
        (if e2.source ∈ acc2 then acc2 else acc2 ++ [e2.source]) else acc2) acc
  | [], acc, x, hx => hx
  | e :: edges, acc, x, hx => by
    rw [List.foldl_cons]
    apply selfLoops_grow edges _ x
    by_cases hs : e.source = e.target
    · rw [if_pos hs]
      by_cases hm : e.source ∈ acc
      · rw [if_pos hm]
        exact hx
      · rw [if_neg hm]
        exact List.mem_append_left _ hx
    · rw [if_neg hs]
      exact hx

theorem selfLoops_mem : ∀ (edges : List Edge) (acc : List String) (e : Edge),
    e ∈ edges → e.source = e.target →
    e.source ∈ edges.foldl (fun acc2 e2 =>
      if e2.source = e2.target then
        (if e2.source ∈ acc2 then acc2 else acc2 ++ [e2.source]) else acc2) acc
  | e0 :: edges, acc, e, he, hst => by
    rw [List.foldl_cons]
    rcases List.mem_cons.mp he with he0 | hrest
    · subst he0
      apply selfLoops_grow
      rw [if_pos hst]
      by_cases hm : e.source ∈ acc
      · rw [if_pos hm]
        exact hm
      · rw [if_neg hm]
        exact List.mem_append_right _ (List.mem_singleton_self _)
    · exact selfLoops_mem edges _ e hrest hst

theorem mem_jmValues_jmSet {α : Type} {m : JsMap α} {k : String} {v w : α}
    (h : w ∈ jmValues (jmSet m k v)) : w ∈ jmValues m ∨ w = v := by
  unfold jmSet at h
  by_cases hh : jmHas m k
  · rw [if_pos hh] at h
    unfold jmValues at h ⊢
    rw [List.map_map, List.mem_map] at h
    obtain ⟨p, hp, hpe⟩ := h
    by_cases hb : (p.1 == k) = true
    · right
      have hpe2 : (if p.1 == k then (k, v) else p).2 = w := hpe
      rw [if_pos hb] at hpe2
      exact hpe2.symm
    · left
      rw [List.mem_map]
      have hpe2 : (if p.1 == k then (k, v) else p).2 = w := hpe
      rw [if_neg hb] at hpe2
      exact ⟨p, hp, hpe2⟩
  · rw [if_neg hh] at h
    unfold jmValues at h ⊢
    rw [List.map_append, List.mem_append] at h
    rcases h with h | h
    · exact Or.inl h
    · right
      rw [List.map_cons, List.map_nil, List.mem_singleton] at h
      exact h

theorem mem_jmValues_addEdge {em : JsMap Edge} {s t k tr mb cf : String} {w : Edge}
    (h : w ∈ jmValues (addEdge em s t k tr mb cf)) :
    w ∈ jmValues em ∨ (w.source = s ∧ w.target = t) := by
  unfold addEdge at h
  by_cases he : s = "" ∨ t = ""
  · rw [if_pos he] at h
    exact Or.inl h
  · rw [if_neg he] at h
    by_cases hh : jmHas em (edgeKey s t k) = true
    · rw [if_pos hh] at h
      exact Or.inl h
    · rw [if_neg hh] at h
      rcases mem_jmValues_jmSet h with h2 | h2
      · exact Or.inl h2
      · subst h2
        exact Or.inr ⟨rfl, rfl⟩

theorem condensedEdgeMap_no_selfloop (mtc : JsMap String) :
    ∀ (edges : List Edge) (em : JsMap Edge),
    (∀ w ∈ jmValues em, ¬ w.source = w.target) →
    ∀ w ∈ jmValues (edges.foldl (fun em2 edge =>
      if (jmGet mtc edge.source).getD edge.source =
          (jmGet mtc edge.target).getD edge.target then em2
      else addEdge em2 ((jmGet mtc edge.source).getD edge.source)
        ((jmGet mtc edge.target).getD edge.target) edge.kind "" "" edge.id) em),
    ¬ w.source = w.target
  | [], em, hem => hem
  | e :: edges, em, hem => by
    rw [List.foldl_cons]
    apply condensedEdgeMap_no_selfloop mtc edges
    intro w hw
    by_cases hst : (jmGet mtc e.source).getD e.source =
        (jmGet mtc e.target).getD e.target
    · rw [if_pos hst] at hw
      exact hem w hw
    · rw [if_neg hst] at hw
      rcases mem_jmValues_addEdge hw with h2 | ⟨hs, ht⟩
      · exact hem w h2
      · rw [hs, ht]
        exact hst

theorem buildCycleAdjacency_elig_key (nodes : List Node) (edges : List Edge)
    (x : String) (hx : x ∈ (buildCycleAdjacency nodes edges).2) :
    x ∈ jmKeys (buildCycleAdjacency nodes edges).1 := by
  unfold buildCycleAdjacency
  have hinit : ∀ (ns : List Node) (acc : JsMap (List String) × List String),
      (∀ y ∈ acc.2, jmHas acc.1 y = true) →
      ∀ y ∈ (ns.foldl (fun acc2 node =>
        if ¬ node.isGhost ∧ node.type ≠ "script" ∧ node.type ≠ "cycle" then
          (jmSet acc2.1 node.id [],
           if node.id ∈ acc2.2 then acc2.2 else acc2.2 ++ [node.id])
        else acc2) acc).2,
      jmHas (ns.foldl (fun acc2 node =>
        if ¬ node.isGhost ∧ node.type ≠ "script" ∧ node.type ≠ "cycle" then
          (jmSet acc2.1 node.id [],
           if node.id ∈ acc2.2 then acc2.2 else acc2.2 ++ [node.id])
        else acc2) acc).1 y = true := by
    intro ns
    induction ns with
    | nil => intro acc h; exact h
    | cons nd ns ihn =>
      intro acc h
      rw [List.foldl_cons]
      apply ihn
      by_cases hel : ¬ nd.isGhost ∧ nd.type ≠ "script" ∧ nd.type ≠ "cycle"
      · rw [if_pos hel]
        intro y hy
        show jmHas (jmSet acc.1 nd.id []) y = true
        rw [jmHas_jmSet]
        by_cases hm : nd.id ∈ acc.2
        · rw [if_pos hm] at hy
          exact Or.inr (h y hy)
        · rw [if_neg hm] at hy
          rcases List.mem_append.mp hy with hy2 | hy2
          · exact Or.inr (h y hy2)
          · rw [List.mem_singleton] at hy2
            exact Or.inl hy2
      · rw [if_neg hel]
        exact h
  have hedge : ∀ (es : List Edge) (elig : List String) (adj : JsMap (List String)),
      (∀ y ∈ elig, jmHas adj y = true) →
      ∀ y ∈ elig, jmHas (es.foldl (fun adj2 edge =>
        if edge.source ∈ elig ∧ edge.target ∈ elig then
          jmModify adj2 edge.source (fun l => l ++ [edge.target])
        else adj2) adj) y = true := by
    intro es
    induction es with
    | nil => intro elig adj h; exact h
    | cons e es ihe =>
      intro elig adj h
      rw [List.foldl_cons]
      apply ihe
      by_cases hc : e.source ∈ elig ∧ e.target ∈ elig
      · rw [if_pos hc]
        intro y hy
        rw [jmHas_jmModify]
        exact h y hy
      · rw [if_neg hc]
        exact h
  rw [← jmHas_iff_mem_keys]
  exact hedge edges _ _ (hinit nodes ([], []) (fun y hy => absurd hy (List.not_mem_nil y))) x hx

theorem exists_mem_enumFrom {α : Type} : ∀ (l : List α) (k : Nat) (c : α),
    c ∈ l → ∃ p ∈ List.enumFrom k l, p.2 = c
  | a :: l, k, c, h => by
    rcases List.mem_cons.mp h with hc | hc
    · exact ⟨(k, a), List.mem_cons_self _ _, hc.symm⟩
    · obtain ⟨p, hp, hpc⟩ := exists_mem_enumFrom l (k + 1) c hc
      exact ⟨p, List.mem_cons_of_mem _ hp, hpc⟩

theorem condenseCycles_selfloop (nodes : List Node) (edges : List Edge)
    (hall : ∀ e ∈ edges, e.source = e.target →
      e.source ∈ (buildCycleAdjacency nodes edges).2) :
    (∀ w ∈ (condenseCycles nodes edges).edges, ¬ w.source = w.target) ∧
    (∀ e ∈ edges, e.source = e.target →
      ∃ nd ∈ (condenseCycles nodes edges).nodes,
        nd.type = "cycle" ∧ e.source ∈ nd.members) := by
  set SL := edges.foldl (fun acc e =>
    if e.source = e.target then
      (if e.source ∈ acc then acc else acc ++ [e.source]) else acc) [] with hSL
  set COMPS := tarjanScc (buildCycleAdjacency nodes edges).1 with hCOMPS
  set CYC := COMPS.filter (fun component =>
    decide (component.length > 1) || decide ((component.headD "") ∈ SL)) with hCYC
  set MTC := CYC.enum.foldl (fun m p =>
    p.2.foldl (fun m2 member =>
      jmSet m2 member ("cycle:" ++ toString (p.1 + 1))) m) ([] : JsMap String) with hMTC
  have hcyc : ∀ e ∈ edges, e.source = e.target → ∃ c ∈ CYC, e.source ∈ c := by
    intro e he hst
    obtain ⟨c, hc, hec⟩ := tarjanScc_covers (buildCycleAdjacency nodes edges).1 e.source
      (buildCycleAdjacency_elig_key nodes edges _ (hall e he hst))
    rw [← hCOMPS] at hc
    refine ⟨c, ?_, hec⟩
    rw [hCYC]
    refine List.mem_filter.mpr ⟨hc, ?_⟩
    show (decide (c.length > 1) || decide ((c.headD "") ∈ SL)) = true
    rw [Bool.or_eq_true]
    by_cases hlen : c.length > 1
    · exact Or.inl (decide_eq_true hlen)
    · right
      have hc1 : c = [e.source] := by
        cases c with
        | nil => cases hec
        | cons a t =>
          cases t with
          | nil =>
            have hea : e.source = a := List.mem_singleton.mp hec
            rw [hea]
          | cons b t2 =>
            exfalso
            apply hlen
            simp [List.length_cons]
      apply decide_eq_true
      rw [hc1]
      show e.source ∈ SL
      rw [hSL]
      exact selfLoops_mem edges [] e he hst
  by_cases hzero : CYC.length = 0
  · have hnosl : ∀ e ∈ edges, ¬ e.source = e.target := by
      intro e he hst
      obtain ⟨c, hc, -⟩ := hcyc e he hst
      rw [List.length_eq_zero] at hzero
      rw [hzero] at hc
      exact absurd hc (List.not_mem_nil c)
    have hedges : (condenseCycles nodes edges).edges = edges := by
      simp only [condenseCycles]
      rw [← hSL, ← hCOMPS, ← hCYC, if_pos hzero]
    constructor
    · intro w hw hst
      rw [hedges] at hw
      exact hnosl w hw hst
    · intro e he hst
      exact absurd hst (hnosl e he)
  · constructor
    · intro w hw hst
      simp only [condenseCycles] at hw
      rw [← hSL, ← hCOMPS, ← hCYC, ← hMTC, if_neg hzero] at hw
      have hw2 : w ∈ jmValues (edges.foldl (fun em2 edge =>
          if (jmGet MTC edge.source).getD edge.source =
              (jmGet MTC edge.target).getD edge.target then em2
          else addEdge em2 ((jmGet MTC edge.source).getD edge.source)
            ((jmGet MTC edge.target).getD edge.target) edge.kind "" "" edge.id)
          ([] : JsMap Edge)) := hw
      exact condensedEdgeMap_no_selfloop MTC edges []
        (fun w3 hw3 => absurd hw3 (List.not_mem_nil w3)) w hw2 hst
    · intro e he hst
      obtain ⟨c, hcC, hec⟩ := hcyc e he hst
      obtain ⟨p, hp, hpc⟩ := exists_mem_enumFrom CYC 0 c hcC
      have hnodes : (condenseCycles nodes edges).nodes =
          (nodes.filter (fun node => ¬ jmHas MTC node.id)) ++
          CYC.enum.map (fun p2 =>
            ({ id := "cycle:" ++ toString (p2.1 + 1)
               label := "cycle(" ++ toString p2.2.length ++ ")"
               type := "cycle"
               shape := "round-rectangle"
               color := "#F7931A"
               category := ""
               status := ""
               moc := false
               isGhost := false
               members := sortStrings p2.2
               scriptPath := ""
               cycleSize := p2.2.length } : Node)) := by
        simp only [condenseCycles]
        rw [← hSL, ← hCOMPS, ← hCYC, ← hMTC, if_neg hzero]
      rw [hnodes]
      refine ⟨_, List.mem_append_right _ (List.mem_map.mpr ⟨p, hp, rfl⟩), rfl, ?_⟩
      show e.source ∈ sortStrings p.2
      rw [mem_sortStrings, hpc]
      exact hec

/-- C1 counterexample: with condensation enabled (the default options), the
single script-typed record x that lists itself as related produces a graph
whose condensed edge set still contains the self-edge (x, x) and whose node
set contains no cycle-typed supernode: script-typed vertices are excluded
from the cycle adjacency, so on this input Tarjan finds no component, the
cycles list stays empty, and condenseCycles returns the original edges
(self-edge included) unchanged, refuting the claim for SCC-ineligible
self-loops. -/
theorem C1_counterexample :
    defaultGraphOptions.condenseCycles = true ∧
    (buildSkillsGraph [{ mkRaw "x" with type := "script", related := ["x"] }]
        defaultGraphOptions).edges.map (fun e => (e.source, e.target)) =
      [("x", "x")] ∧
    (buildSkillsGraph [{ mkRaw "x" with type := "script", related := ["x"] }]
        defaultGraphOptions).nodes.filter (fun n => n.type == "cycle") = [] :=
  ⟨rfl, by decide, by decide⟩

/-- C1 (amended): with cycle condensation enabled, whenever every self-loop
of the builder's edge set sits on an SCC-eligible vertex (neither ghost, nor
script, nor cycle typed), the returned graph contains no edge whose source
equals its target, and the lone vertex of every such self-loop is absorbed
into the members of a cycle supernode of the returned graph (a size-1 cycle
when the vertex is in no larger strongly connected component). -/
theorem C1_amended_condensation (rawSkills : List RawSkill) (options : GraphOptions)
    (hcond : options.condenseCycles = true)
    (helig : ∀ e ∈ builderEdges rawSkills, e.source = e.target →
      e.source ∈ eligibleIds rawSkills) :
    (∀ w ∈ (buildSkillsGraph rawSkills options).edges, ¬ w.source = w.target) ∧
    (∀ e ∈ builderEdges rawSkills, e.source = e.target →
      ∃ nd ∈ (buildSkillsGraph rawSkills options).nodes,
        nd.type = "cycle" ∧ e.source ∈ nd.members) := by
  obtain ⟨cc, ao⟩ := options
  have hcc : cc = true := hcond
  subst hcc
  obtain ⟨h1, h2⟩ :=
    condenseCycles_selfloop (builderNodes rawSkills) (builderEdges rawSkills) helig
  have hedges2 : (buildSkillsGraph rawSkills ⟨true, ao⟩).edges =
      List.insertionSort edgeLe
        (condenseCycles (builderNodes rawSkills) (builderEdges rawSkills)).edges := rfl
  have hnodes2 : (buildSkillsGraph rawSkills ⟨true, ao⟩).nodes =
      List.insertionSort nodeLe
        (condenseCycles (builderNodes rawSkills) (builderEdges rawSkills)).nodes := rfl
  constructor
  · intro w hw hst
    rw [hedges2] at hw
    exact h1 w ((List.mem_insertionSort _).mp hw) hst
  · intro e he hst
    obtain ⟨nd, hnd, hty, hmem⟩ := h2 e he hst
    refine ⟨nd, ?_, hty, hmem⟩
    rw [hnodes2]
    exact (List.mem_insertionSort _).mpr hnd

/-- C1 witness: the eligible self-loop record a (related to itself) with the
default options satisfies both hypotheses of the amended theorem, and hence
its conclusions: no self-edge in the output, and a lands in the members of a
cycle supernode. -/
theorem C1_amended_witness :
    ((defaultGraphOptions.condenseCycles = true) ∧
     (∀ e ∈ builderEdges [{ mkRaw "a" with related := ["a"] }],
        e.source = e.target →
        e.source ∈ eligibleIds [{ mkRaw "a" with related := ["a"] }])) ∧
    ((∀ w ∈ (buildSkillsGraph [{ mkRaw "a" with related := ["a"] }]
        defaultGraphOptions).edges, ¬ w.source = w.target) ∧
     (∀ e ∈ builderEdges [{ mkRaw "a" with related := ["a"] }],
        e.source = e.target →
        ∃ nd ∈ (buildSkillsGraph [{ mkRaw "a" with related := ["a"] }]
            defaultGraphOptions).nodes,
          nd.type = "cycle" ∧ e.source ∈ nd.members)) :=
  ⟨⟨rfl, by decide⟩,
   C1_amended_condensation [{ mkRaw "a" with related := ["a"] }] defaultGraphOptions
     rfl (by decide)⟩
